import Mathlib

/-!
# Resize propagation of sway (`sway/commands/resize.c`)

A shallow embedding of the resize engine: the group partition calculator for
auto layouts, the floating resizer and the tiled resizer (ancestor search,
validation pass, commit pass).

## Integer model

* `int` values are `Int`.  Signed arithmetic is exact (signed overflow is
  undefined in C and is not modelled).
* `uint_fast32_t` values are `Nat` below `2 ^ 64` (the LP64 width of the
  type); unsigned arithmetic wraps modulo `2 ^ 64`.
* `to_uint` is the conversion `int -> uint_fast32_t` (value modulo `2 ^ 64`),
  `to_int` the conversion `uint_fast32_t -> int` (low 32 bits, two's
  complement).
* A division whose divisor is zero, an access outside the children list, a
  dereference of a null pointer and a cast to `int` of a value that `int`
  cannot hold are faults; loops that the source does not bound take fuel.
* `float` values are exact fractions that are binary32 numbers: every `float`
  operation rounds its exact result to the nearest binary32 number, ties to
  even (`f32_round`).
-/

namespace Sway

/-! ## Faults and machine integers -/

/-- Ways in which a run of the C code fails to return a value. -/
inductive Fault
  | divByZero
  | outOfFuel
  | outOfBounds
  | nullDeref
  | castUndefined
  deriving DecidableEq, Repr

instance {α : Type} [DecidableEq α] : DecidableEq (Except Fault α)
  | .ok a, .ok b => if h : a = b then isTrue (by rw [h]) else isFalse (by intro h2; cases h2; exact h rfl)
  | .error a, .error b => if h : a = b then isTrue (by rw [h]) else isFalse (by intro h2; cases h2; exact h rfl)
  | .ok _, .error _ => isFalse (by intro h; cases h)
  | .error _, .ok _ => isFalse (by intro h; cases h)

/-- Conversion `int -> uint_fast32_t`. -/
def to_uint (z : Int) : Nat := (z % (2 ^ 64 : Int)).toNat

/-- Conversion `uint_fast32_t -> int`: the low 32 bits in two's complement. -/
def to_int (n : Nat) : Int :=
  if n % 2 ^ 32 < 2 ^ 31 then ((n % 2 ^ 32 : Nat) : Int) else ((n % 2 ^ 32 : Nat) : Int) - 2 ^ 32

/-- Unsigned addition. -/
def uadd (a b : Nat) : Nat := (a + b) % 2 ^ 64

/-- Unsigned subtraction. -/
def usub (a b : Nat) : Nat := (a % 2 ^ 64 + (2 ^ 64 - b % 2 ^ 64)) % 2 ^ 64

/-- Unsigned multiplication. -/
def umul (a b : Nat) : Nat := (a * b) % 2 ^ 64

/-- Unsigned division; a zero divisor is a fault. -/
def udiv (a b : Nat) : Except Fault Nat :=
  if b = 0 then .error .divByZero else .ok (a / b)

/-- Unsigned remainder; a zero divisor is a fault. -/
def umod (a b : Nat) : Except Fault Nat :=
  if b = 0 then .error .divByZero else .ok (a % b)

/-! ## Containers -/

/-- Modelled from the spec: the layouts of a container (`enum swayc_layouts`,
declared outside `resize.c`). -/
inductive swayc_layouts
  | L_HORIZ
  | L_VERT
  | L_STACKED
  | L_TABBED
  | L_AUTO_LEFT
  | L_AUTO_RIGHT
  | L_AUTO_TOP
  | L_AUTO_BOTTOM
  deriving DecidableEq, Repr

open swayc_layouts

/-- Modelled from the spec: the four `auto-*` variants are the auto layouts
(`is_auto_layout` is declared outside `resize.c`). -/
def is_auto_layout (l : swayc_layouts) : Bool :=
  l = L_AUTO_LEFT || l = L_AUTO_RIGHT || l = L_AUTO_TOP || l = L_AUTO_BOTTOM

/-- Modelled from the spec: the fields of a container (`swayc_t`) that
`resize.c` reads or writes; geometry is integral, `nb_master` and
`nb_slave_groups` are `uint_fast32_t`, `children` stands for
`children->items` with `children->length = children.length`. -/
structure swayc_t where
  layout : swayc_layouts
  nb_master : Nat
  nb_slave_groups : Nat
  x : Int
  y : Int
  width : Int
  height : Int
  desired_width : Int
  desired_height : Int
  children : List swayc_t
  is_floating : Bool := false

/-- The C expression `container->children->length`. -/
def swayc_t.length (c : swayc_t) : Int := (c.children.length : Int)

/-- Modelled from the spec: the macro `MIN` on two `uint_fast32_t` operands. -/
def MIN (a b : Nat) : Nat := if a < b then a else b

/-! ## Group partition calculator -/

/-- Loop of `next_group_index`, started at child `i` with group counter
`grp_idx` (which the source never advances). -/
def next_group_index_loop (container : swayc_t) (after : Int) :
    Nat → Int → Nat → Except Fault Int
  | 0, _, _ => .error .outOfFuel
  | fuel + 1, i, grp_idx =>
    if i < container.length then
      match udiv (to_uint (container.length - i)) (usub container.nb_slave_groups grp_idx) with
      | .error e => .error e
      | .ok grp_sz =>
        if after - i < to_int grp_sz then
          .ok (to_int (uadd (to_uint i) grp_sz))
        else
          next_group_index_loop container after fuel (to_int (uadd (to_uint i) grp_sz)) grp_idx
    else
      .ok container.length

/-- The function `next_group_index`: index of the first child of the group
after the one holding `after`. -/
def next_group_index (fuel : Nat) (container : swayc_t) (after : Int) : Except Fault Int :=
  if after < 0 then
    .ok 0
  else if is_auto_layout container.layout then
    if to_uint after < container.nb_master then
      .ok (to_int container.nb_master)
    else
      next_group_index_loop container after fuel (to_int container.nb_master) 0
  else
    .ok container.length

/-- The function `slave_count`: children that are not in the master group. -/
def slave_count (container : swayc_t) : Nat :=
  usub (to_uint container.length) container.nb_master

/-- The function `group_start_index`: first child of the group of `index`. -/
def group_start_index (container : swayc_t) (index : Int) : Except Fault Int :=
  if index < 0 ∨ ¬ is_auto_layout container.layout ∨ to_uint index < container.nb_master then
    .ok 0
  else
    match udiv (slave_count container) container.nb_slave_groups,
          umod (slave_count container) container.nb_slave_groups with
    | .error e, _ => .error e
    | _, .error e => .error e
    | .ok grp_sz, .ok remainder =>
      match udiv (usub (to_uint index) container.nb_master) grp_sz with
      | .error e => .error e
      | .ok q =>
        if q < usub container.nb_slave_groups remainder then
          .ok (to_int (uadd (umul q grp_sz) container.nb_master))
        else
          let idx2 : Int :=
            to_int (uadd (umul (usub container.nb_slave_groups remainder) grp_sz)
              container.nb_master)
          match udiv (to_uint (idx2 - index)) (uadd grp_sz 1) with
          | .error e => .error e
          | .ok k => .ok (to_int (uadd (to_uint idx2) (umul k (uadd grp_sz 1))))

/-- The function `group_end_index`: first child of the group after the group
of `index`. -/
def group_end_index (container : swayc_t) (index : Int) : Except Fault Int :=
  if index < 0 ∨ ¬ is_auto_layout container.layout then
    .ok container.length
  else
    match udiv (slave_count container) container.nb_slave_groups,
          umod (slave_count container) container.nb_slave_groups with
    | .error e, _ => .error e
    | _, .error e => .error e
    | .ok grp_sz, .ok remainder =>
      match udiv (usub (to_uint index) container.nb_master) grp_sz with
      | .error e => .error e
      | .ok q =>
        if q < usub container.nb_slave_groups remainder then
          .ok (to_int (uadd (umul (uadd q 1) grp_sz) container.nb_master))
        else
          let idx2 : Int :=
            to_int (uadd (umul (usub container.nb_slave_groups remainder) grp_sz)
              container.nb_master)
          match udiv (to_uint (idx2 - index)) (uadd grp_sz 1) with
          | .error e => .error e
          | .ok k => .ok (to_int (uadd (to_uint idx2) (umul (uadd k 1) (uadd grp_sz 1))))

/-- The function `group_count`: number of master and slave groups. -/
def group_count (container : swayc_t) : Nat :=
  uadd (MIN container.nb_slave_groups (slave_count container))
    (if container.nb_master ≠ 0 then 1 else 0)

/-- Loop of `group_index`, at child `i` with group counter `grp_idx`; the
body advances neither. The result is `grp_idx` when the loop is left. -/
def group_index_loop (container : swayc_t) (index : Int) :
    Nat → Int → Nat → Except Fault Nat
  | 0, _, _ => .error .outOfFuel
  | fuel + 1, i, grp_idx =>
    if i < container.length then
      match udiv (to_uint (container.length - i)) (usub container.nb_slave_groups grp_idx) with
      | .error e => .error e
      | .ok grp_sz =>
        if index - i < to_int grp_sz then
          .ok grp_idx
        else
          group_index_loop container index fuel i grp_idx
    else
      .ok grp_idx

/-- The function `group_index`: ordinal along the major axis of the group of
child `index`. -/
def group_index (fuel : Nat) (container : swayc_t) (index : Int) : Except Fault Nat :=
  let master_first : Bool :=
    container.layout = L_AUTO_LEFT || container.layout = L_AUTO_TOP
  let nb_slaves : Int := to_int (slave_count container)
  if index < to_int container.nb_master then
    if master_first ∨ nb_slaves ≤ 0 then
      .ok 0
    else
      .ok (MIN container.nb_slave_groups (to_uint nb_slaves))
  else
    match group_index_loop container index fuel (to_int container.nb_master) 0 with
    | .error e => .error e
    | .ok grp_idx => .ok (uadd grp_idx (if master_first then 1 else 0))

/-- A childless container (a view) with the given position and size. -/
def view (x y width height : Int) : swayc_t :=
  { layout := L_HORIZ, nb_master := 0, nb_slave_groups := 0, x := x, y := y,
    width := width, height := height, desired_width := width, desired_height := height,
    children := [] }

/-- A container with `n` views as children, for the partition calculator. -/
def auto_container (layout : swayc_layouts) (nb_master nb_slave_groups n : Nat) : swayc_t :=
  { layout := layout, nb_master := nb_master, nb_slave_groups := nb_slave_groups,
    x := 0, y := 0, width := 0, height := 0, desired_width := 0, desired_height := 0,
    children := List.replicate n (view 0 0 0 0) }

/-! ## Reference partition (spec, section 4.1) -/

/-- Number of slave children, as the spec counts them. -/
def ref_slave_count (container : swayc_t) : Nat :=
  container.children.length - container.nb_master

/-- Reference partition: size of slave group `g`. The first
`slave_group_count - remainder` groups hold `base_size` children, the
remaining ones `base_size + 1`. -/
def ref_group_size (container : swayc_t) (g : Nat) : Nat :=
  let base_size := ref_slave_count container / container.nb_slave_groups
  let remainder := ref_slave_count container % container.nb_slave_groups
  if g < container.nb_slave_groups - remainder then base_size else base_size + 1

/-- Reference partition: child index of the first member of slave group `g`:
the groups follow the master children, in order. -/
def ref_group_first (container : swayc_t) (g : Nat) : Nat :=
  container.nb_master + ((List.range g).map (ref_group_size container)).sum

/-- Reference partition: the slave group that holds child `i`, if any. -/
def ref_group_of (container : swayc_t) (i : Nat) : Option Nat :=
  (List.range container.nb_slave_groups).find?
    (fun g => decide (ref_group_first container g ≤ i ∧ i < ref_group_first container (g + 1)))

/-- Reference partition: first child index of the group of child `i`. -/
def ref_group_start (container : swayc_t) (i : Nat) : Option Nat :=
  (ref_group_of container i).map (ref_group_first container)

/-- Reference partition: child index one past the last member of the group
of child `i`. -/
def ref_group_end (container : swayc_t) (i : Nat) : Option Nat :=
  (ref_group_of container i).map (fun g => ref_group_first container (g + 1))

/-! ## Floating resizer -/

/-- Modelled from the spec: the clamp collaborator `floating_view_sane_size`
(defined outside `resize.c`) enforces bounds on `desired_width` and
`desired_height` and writes nothing else; `sane` gives the two clamped
values for a container. -/
def floating_view_sane_size (sane : swayc_t → Int × Int) (view : swayc_t) : swayc_t :=
  { view with desired_width := (sane view).1, desired_height := (sane view).2 }

/-- The function `set_size_floating`, on the focused floating window returned by
`get_focused_float` (`none` when there is none). The result is the returned
flag and the window afterwards. `update_geometry` only reports the geometry
to the display layer and leaves the container as it is. -/
def set_size_floating (sane : swayc_t → Int × Int) (focused_float : Option swayc_t)
    (new_dimension : Int) (use_width : Bool) : Bool × Option swayc_t :=
  match focused_float with
  | some view =>
    if use_width then
      let current_width := view.width
      let view := { view with desired_width := new_dimension }
      let view := floating_view_sane_size sane view
      let new_x := view.x + Int.tdiv (view.desired_width - current_width) 2 * -1
      let view := { view with width := view.desired_width }
      let view := { view with x := new_x }
      (true, some view)
    else
      let current_height := view.height
      let view := { view with desired_height := new_dimension }
      let view := floating_view_sane_size sane view
      let new_y := view.y + Int.tdiv (view.desired_height - current_height) 2 * -1
      let view := { view with height := view.desired_height }
      let view := { view with y := new_y }
      (true, some view)
  | none => (false, none)

/-- The function `resize_floating`. -/
def resize_floating (sane : swayc_t → Int × Int) (focused_float : Option swayc_t)
    (amount : Int) (use_width : Bool) : Bool × Option swayc_t :=
  match focused_float with
  | some view =>
    if use_width then
      set_size_floating sane focused_float (view.width + amount) true
    else
      set_size_floating sane focused_float (view.height + amount) false
  | none => (false, none)

/-- The clamp that changes nothing. -/
def sane_id (view : swayc_t) : Int × Int := (view.desired_width, view.desired_height)

/-- The clamp leaves a request for dimension `dim` on the axis unchanged. -/
def clamp_keeps (sane : swayc_t → Int × Int) (use_width : Bool) (dim : Int) : Prop :=
  ∀ u : swayc_t,
    if use_width then u.desired_width = dim → (sane u).1 = dim
    else u.desired_height = dim → (sane u).2 = dim

/-- Dimension of a container on the resize axis. -/
def dimension (use_width : Bool) (c : swayc_t) : Int :=
  if use_width then c.width else c.height

/-! ## Tiled resizer -/

/-- Values of the C `double` variable `pixels`. A finite value is the exact
fraction `num / den` with `den > 0` (rounding is not modelled); a division by
zero yields an IEEE infinity or NaN. -/
inductive pixels_t
  | fin (num : Int) (den : Nat)
  | pos_inf
  | neg_inf
  | nan
  deriving DecidableEq, Repr

namespace pixels_t

/-- Conversion `int -> double`. -/
def of_int (a : Int) : pixels_t := fin a 1

/-- Negation `-pixels`. -/
def neg : pixels_t → pixels_t
  | fin n d => fin (-n) d
  | pos_inf => neg_inf
  | neg_inf => pos_inf
  | nan => nan

/-- Division `pixels / n` by a converted non-negative integer `n`. -/
def div_uint : pixels_t → Nat → pixels_t
  | fin n d, k =>
    if k = 0 then (if 0 < n then pos_inf else if n < 0 then neg_inf else nan)
    else fin n (d * k)
  | pos_inf, _ => pos_inf
  | neg_inf, _ => neg_inf
  | nan, _ => nan

/-- Sum `w + pixels` of a converted integer and a double. -/
def add_int (w : Int) : pixels_t → pixels_t
  | fin n d => fin (w * d + n) d
  | pos_inf => pos_inf
  | neg_inf => neg_inf
  | nan => nan

/-- Comparison `pixels < m` with a converted integer. -/
def lt_int : pixels_t → Int → Bool
  | fin n d, m => decide (n < m * d)
  | pos_inf, _ => false
  | neg_inf, _ => true
  | nan, _ => false

/-- Value of a finite double as a rational; `0` for the others. -/
def to_rat : pixels_t → ℚ
  | fin n d => (n : ℚ) / (d : ℚ)
  | _ => 0

/-- The double is finite. -/
def finite : pixels_t → Bool
  | fin _ _ => true
  | _ => false

/-- Sign of a value, `1`, `-1` or `0`; the sign of NaN is given as `0`. -/
def sgn : pixels_t → Int
  | fin n _ => Int.sign n
  | pos_inf => 1
  | neg_inf => -1
  | nan => 0

/-- Exact product of two values; an infinity times zero is NaN. -/
def mul : pixels_t → pixels_t → pixels_t
  | fin n d, fin m e => fin (n * m) (d * e)
  | nan, _ => nan
  | _, nan => nan
  | x, y =>
    if sgn x * sgn y = 0 then nan else if 0 < sgn x * sgn y then pos_inf else neg_inf

/-- The cast `(int)x` to the 32-bit `int`: the value truncated toward zero; the
cast is undefined when the truncated value is outside the range of `int` or
the value is not finite. -/
def cast_int : pixels_t → Except Fault Int
  | fin n d =>
    if -2 ^ 31 ≤ Int.tdiv n d ∧ Int.tdiv n d < 2 ^ 31 then .ok (Int.tdiv n d)
    else .error .castUndefined
  | _ => .error .castUndefined

end pixels_t

/-- Edges named in the calls of `recursive_resize`. -/
inductive wlc_resize_edge
  | WLC_RESIZE_EDGE_LEFT
  | WLC_RESIZE_EDGE_RIGHT
  | WLC_RESIZE_EDGE_TOP
  | WLC_RESIZE_EDGE_BOTTOM
  deriving DecidableEq, Repr

open wlc_resize_edge

/-- A call made to a collaborator; a container is named by its path of child
indices from the root. -/
inductive call
  | recursive_resize (container : List Nat) (pixels : pixels_t) (edge : wlc_resize_edge)
  | arrange_windows
  deriving DecidableEq, Repr

/-- The container at a path of child indices below `root`. -/
def subtree (root : swayc_t) : List Nat → Option swayc_t
  | [] => some root
  | i :: rest =>
    match root.children[i]? with
    | none => none
    | some c => subtree c rest

/-- The C expression `parent->children->items[i]`; outside the list there is
no item. -/
def item (parent : swayc_t) (i : Int) : Option swayc_t :=
  if i < 0 then none else parent.children[i.toNat]?

/-- Test of the resolver on a parent: more than one child, and an auto layout
or the split that matches the axis. -/
def candidate (use_width : Bool) (parent : swayc_t) : Bool :=
  decide (parent.children.length > 1) &&
    (is_auto_layout parent.layout ||
      (if use_width then decide (parent.layout = L_HORIZ) else decide (parent.layout = L_VERT)))

/-- The flag `use_major` of the resolver for a parent. -/
def major_axis (use_width : Bool) (parent : swayc_t) : Bool :=
  if use_width then
    decide (parent.layout = L_AUTO_LEFT) || decide (parent.layout = L_AUTO_RIGHT)
  else
    decide (parent.layout = L_AUTO_TOP) || decide (parent.layout = L_AUTO_BOTTOM)

/-- The counts `nb_before` and `nb_after` the resolver computes at a parent for
child `idx_focused`. -/
def neighbours (fuel : Nat) (use_major : Bool) (parent : swayc_t) (idx_focused : Int) :
    Except Fault (Nat × Nat) :=
  if use_major then
    match group_index fuel parent idx_focused with
    | .error e => .error e
    | .ok nb_before => .ok (nb_before, usub (usub (group_count parent) nb_before) 1)
  else
    match group_start_index parent idx_focused with
    | .error e => .error e
    | .ok start =>
      match next_group_index fuel parent idx_focused with
      | .error e => .error e
      | .ok next => .ok (to_uint (idx_focused - start), to_uint (next - idx_focused - 1))

/-- Local variables of `resize_tiled` that the ancestor search sets. A parent
is named by its path from the root, innermost index first; `none` is the null
pointer. -/
structure resolved where
  parent : Option (List Nat)
  idx_focused : Int
  use_major : Bool
  nb_before : Nat
  nb_after : Nat
  deriving DecidableEq, Repr

/-- The `while (container->parent)` loop of `resize_tiled`. The container is
named by its path from the root, innermost index first, so that
`index_child(container)` is the head of the path (never negative: the branch
`idx_focused < 0` is not reached) and the parent is its tail. The result is
the state in which the loop is left, by `break` or at the root. -/
def resolve_loop (fuel : Nat) (use_width : Bool) (root : swayc_t) :
    List Nat → resolved → Except Fault resolved
  | [], st => .ok st
  | idx :: up, st =>
    match subtree root up.reverse with
    | none => .error .outOfBounds
    | some parent =>
      if candidate use_width parent then
        let use_major := major_axis use_width parent
        let idx_focused : Int := (idx : Int)
        match neighbours fuel use_major parent idx_focused with
        | .error e => .error e
        | .ok (nb_before, nb_after) =>
          let st : resolved :=
            { parent := some up, idx_focused := idx_focused, use_major := use_major,
              nb_before := nb_before, nb_after := nb_after }
          if nb_before ≠ 0 ∨ nb_after ≠ 0 then .ok st
          else resolve_loop fuel use_width root up st
      else
        resolve_loop fuel use_width root up { st with parent := some up }

/-- Step 1 of `resize_tiled`: the ancestor search from the focused view, which
is named by its path `focus` from the root. -/
def resolve (fuel : Nat) (use_width : Bool) (root : swayc_t) (focus : List Nat) :
    Except Fault resolved :=
  match subtree root focus with
  | none => .error .outOfBounds
  | some _ =>
    resolve_loop fuel use_width root focus.reverse
      { parent := focus.reverse.tail?, idx_focused := 0, use_major := false,
        nb_before := 0, nb_after := 0 }

/-- The value of `pixels` that both passes of `resize_tiled` compute for a
sibling, with the flags `is_before` and `is_after`. -/
def sibling_pixels (use_width : Bool) (amount : Int) (nb_before nb_after : Nat)
    (focused sibling : swayc_t) : pixels_t × Bool × Bool :=
  let pixels := pixels_t.of_int amount
  let is_before : Bool :=
    if use_width then decide (sibling.x < focused.x) else decide (sibling.y < focused.y)
  let is_after : Bool :=
    if use_width then decide (sibling.x > focused.x) else decide (sibling.y > focused.y)
  if is_before || is_after then
    let pixels := pixels.neg
    let pixels := pixels.div_uint (if is_before then nb_before else nb_after)
    let pixels := if nb_after ≠ 0 ∧ nb_before ≠ 0 then pixels.div_uint 2 else pixels
    (pixels, is_before, is_after)
  else
    (pixels, is_before, is_after)

/-- The test of the validation pass: the sibling would drop below the sane
size on the resize axis. -/
def below_sane (use_width : Bool) (min_sane_w min_sane_h : Int) (amount : Int)
    (nb_before nb_after : Nat) (focused sibling : swayc_t) : Bool :=
  let pixels := (sibling_pixels use_width amount nb_before nb_after focused sibling).1
  if use_width then (pixels.add_int sibling.width).lt_int min_sane_w
  else (pixels.add_int sibling.height).lt_int min_sane_h

/-- The step `i = use_major ? next_group_index(parent, i) : (i + 1)`. -/
def validate_step (fuel : Nat) (use_major : Bool) (parent : swayc_t) (i : Int) :
    Except Fault Int :=
  if use_major then next_group_index fuel parent i else .ok (i + 1)

/-- The loop of the validation pass from index `i`; the result is `valid`. -/
def validate_loop (fuel : Nat) (use_width : Bool) (min_sane_w min_sane_h : Int) (amount : Int)
    (st : resolved) (parent focused : swayc_t) (stop : Int) : Nat → Int → Except Fault Bool
  | 0, _ => .error .outOfFuel
  | n + 1, i =>
    if i < stop then
      match item parent i with
      | none => .error .outOfBounds
      | some sibling =>
        if below_sane use_width min_sane_w min_sane_h amount st.nb_before st.nb_after
            focused sibling then
          .ok false
        else
          match validate_step fuel st.use_major parent i with
          | .error e => .error e
          | .ok next =>
            validate_loop fuel use_width min_sane_w min_sane_h amount st parent focused stop n next
    else
      .ok true

/-- Bounds `start` and `end` of the validation pass. -/
def validate_bounds (st : resolved) (parent : swayc_t) : Except Fault (Int × Int) :=
  if st.use_major then .ok (0, parent.length)
  else
    match group_start_index parent st.idx_focused with
    | .error e => .error e
    | .ok start =>
      match group_end_index parent st.idx_focused with
      | .error e => .error e
      | .ok stop => .ok (start, stop)

/-- Step 2 of `resize_tiled`: the validation pass; the result is `valid`. -/
def validate (fuel : Nat) (use_width : Bool) (min_sane_w min_sane_h : Int) (amount : Int)
    (st : resolved) (parent focused : swayc_t) : Except Fault Bool :=
  match validate_bounds st parent with
  | .error e => .error e
  | .ok (start, stop) =>
    validate_loop fuel use_width min_sane_w min_sane_h amount st parent focused stop fuel start

/-- The calls of the commit pass for the sibling at index `i`. -/
def commit_sibling (use_width : Bool) (amount : Int) (st : resolved) (parent_path : List Nat)
    (focused : swayc_t) (i : Nat) (sibling : swayc_t) : List call :=
  match sibling_pixels use_width amount st.nb_before st.nb_after focused sibling with
  | (pixels, is_before, is_after) =>
    if is_before || is_after then
      [call.recursive_resize (parent_path ++ [i]) pixels
        (if use_width then
          (if is_before then WLC_RESIZE_EDGE_RIGHT else WLC_RESIZE_EDGE_LEFT)
        else
          (if is_before then WLC_RESIZE_EDGE_BOTTOM else WLC_RESIZE_EDGE_TOP))]
    else
      [call.recursive_resize (parent_path ++ [i]) pixels
        (if use_width then WLC_RESIZE_EDGE_LEFT else WLC_RESIZE_EDGE_TOP),
       call.recursive_resize (parent_path ++ [i]) pixels
        (if use_width then WLC_RESIZE_EDGE_RIGHT else WLC_RESIZE_EDGE_BOTTOM)]

/-- The loop of the commit pass over the items from index `i` on. The deltas
depend on positions and counts only, which `recursive_resize` leaves as they
are, so the calls are those computed on the tree before the pass. -/
def commit_loop (use_width : Bool) (amount : Int) (st : resolved) (parent_path : List Nat)
    (focused : swayc_t) : Nat → List swayc_t → List call
  | _, [] => []
  | i, sibling :: rest =>
    commit_sibling use_width amount st parent_path focused i sibling ++
      commit_loop use_width amount st parent_path focused (i + 1) rest

/-- The function `resize_tiled` on the tree below `root`, with the focused view
(`get_focused_view`) at path `focus`. The result is the returned flag and the
calls made to `recursive_resize` and `arrange_windows`, in order. The sane
sizes `min_sane_w` and `min_sane_h` are defined outside `resize.c`. -/
def resize_tiled (fuel : Nat) (min_sane_w min_sane_h : Int) (root : swayc_t)
    (focus : List Nat) (amount : Int) (use_width : Bool) : Except Fault (Bool × List call) :=
  match resolve fuel use_width root focus with
  | .error e => .error e
  | .ok st =>
    match st.parent with
    | none => .error .nullDeref
    | some [] => .ok (true, [])
    | some (p :: ps) =>
      match subtree root (p :: ps).reverse with
      | none => .error .outOfBounds
      | some parent =>
        match item parent st.idx_focused with
        | none => .error .outOfBounds
        | some focused =>
          match validate fuel use_width min_sane_w min_sane_h amount st parent focused with
          | .error e => .error e
          | .ok valid =>
            if valid then
              .ok (true,
                commit_loop use_width amount st (p :: ps).reverse focused 0 parent.children ++
                  [call.arrange_windows])
            else
              .ok (true, [])

/-- The tree after a list of collaborator calls, for given collaborators
`recursive_resize` and `arrange_windows`. -/
def run_calls (rr : swayc_t → List Nat → pixels_t → wlc_resize_edge → swayc_t)
    (arr : swayc_t → swayc_t) : swayc_t → List call → swayc_t
  | root, [] => root
  | root, call.recursive_resize c pixels edge :: rest => run_calls rr arr (rr root c pixels edge) rest
  | root, call.arrange_windows :: rest => run_calls rr arr (arr root) rest

/-- A container with the given layout, position, size and children. -/
def node (layout : swayc_layouts) (x y width height : Int) (children : List swayc_t) : swayc_t :=
  { layout := layout, nb_master := 0, nb_slave_groups := 0, x := x, y := y,
    width := width, height := height, desired_width := width, desired_height := height,
    children := children }

/-- Every ancestor of the container at a path (innermost index first) fails
to absorb a resize: it is no `candidate`, or the resolver computes
`nb_before = 0` and `nb_after = 0` at it. -/
def no_absorber (fuel : Nat) (use_width : Bool) (root : swayc_t) : List Nat → Bool
  | [] => true
  | idx :: up =>
    (match subtree root up.reverse with
     | none => false
     | some parent =>
       !candidate use_width parent ||
         decide (neighbours fuel (major_axis use_width parent) parent (idx : Int) = .ok (0, 0))) &&
      no_absorber fuel use_width root up

/-- Modelled from the spec: the size a container has after `recursive_resize`
adds a delta to it; the sum is truncated to an integer, and a delta that is
not finite leaves the size as it is. -/
def add_pixels (size : Int) : pixels_t → Int
  | pixels_t.fin n d => Int.tdiv (size * d + n) d
  | _ => size

/-- Modelled from the spec: `recursive_resize` (defined outside `resize.c`) on
the container itself: the delta is added to the width for the left and right
edges, to the height for the top and bottom edges; positions stay. -/
def resize_container (pixels : pixels_t) (edge : wlc_resize_edge) (c : swayc_t) : swayc_t :=
  match edge with
  | WLC_RESIZE_EDGE_LEFT => { c with width := add_pixels c.width pixels }
  | WLC_RESIZE_EDGE_RIGHT => { c with width := add_pixels c.width pixels }
  | WLC_RESIZE_EDGE_TOP => { c with height := add_pixels c.height pixels }
  | WLC_RESIZE_EDGE_BOTTOM => { c with height := add_pixels c.height pixels }

/-- The tree with `f` applied to the container at a path. -/
def update_at (f : swayc_t → swayc_t) : List Nat → swayc_t → swayc_t
  | [], c => f c
  | i :: rest, c =>
    match c.children[i]? with
    | none => c
    | some child => { c with children := c.children.set i (update_at f rest child) }

/-- Modelled from the spec: `recursive_resize` as a change of the tree. -/
def recursive_resize_spec (root : swayc_t) (container : List Nat) (pixels : pixels_t)
    (edge : wlc_resize_edge) : swayc_t :=
  update_at (resize_container pixels edge) container root

/-- Widths of the children of the container at a path. -/
def child_widths (root : swayc_t) (path : List Nat) : Option (List Int) :=
  (subtree root path).map (fun c => c.children.map swayc_t.width)

/-- Tree of the tiled examples: a tabbed root with one horizontal split of two
views of the given widths; the first starts at `x = 0`, the second follows. -/
def split2 (w0 w1 : Int) : swayc_t :=
  node L_TABBED 0 0 (w0 + w1) 800
    [node L_HORIZ 0 0 (w0 + w1) 800 [view 0 0 w0 800, view w0 0 w1 800]]

/-- A chain of single-child containers down to one view. -/
def single_chain : swayc_t :=
  node L_HORIZ 0 0 1000 800 [node L_HORIZ 0 0 1000 800 [node L_VERT 0 0 1000 800
    [view 0 0 1000 800]]]

/-- Position of a container on the resize axis. -/
def position (use_width : Bool) (c : swayc_t) : Int :=
  if use_width then c.x else c.y

/-- The delta of a call is a finite double. -/
def call.finite : call → Bool
  | call.recursive_resize _ pixels _ => pixels.finite
  | call.arrange_windows => true

/-- Sum, over exact rationals, of the deltas handed to `recursive_resize`. -/
def sum_pixels : List call → ℚ
  | [] => 0
  | call.recursive_resize _ pixels _ :: rest => pixels.to_rat + sum_pixels rest
  | call.arrange_windows :: rest => sum_pixels rest

/-- Container of the partition examples: auto-left, one master, two slave
groups, five slave children. -/
def part6 : swayc_t := auto_container L_AUTO_LEFT 1 2 6

/-- Delta of a sibling on one side of the focused container, `nb` being the
count on that side. -/
def side_pixels (amount : Int) (nb nb_before nb_after : Nat) : pixels_t :=
  if nb_after ≠ 0 ∧ nb_before ≠ 0 then
    ((pixels_t.of_int amount).neg.div_uint nb).div_uint 2
  else (pixels_t.of_int amount).neg.div_uint nb

/-! ## Resize request normalizer -/

/-- Units of a resize request (`enum resize_dim_types`). -/
inductive resize_dim_types
  | RESIZE_DIM_PX
  | RESIZE_DIM_PPT
  | RESIZE_DIM_DEFAULT
  deriving DecidableEq, Repr

open resize_dim_types

/-- The call through which `resize` returns, with its arguments. -/
inductive resize_call
  | resize_floating (amount : Int) (use_width : Bool)
  | resize_tiled (amount : Int) (use_width : Bool)
  deriving DecidableEq, Repr

/-- Index of the highest set bit of `n`, by halving at most `fuel` times. -/
def ilog2_fuel : Nat → Nat → Nat
  | 0, _ => 0
  | fuel + 1, n => if n < 2 then 0 else ilog2_fuel fuel (n / 2) + 1

/-- Index of the highest set bit of `n`: `2 ^ ilog2 n ≤ n < 2 ^ (ilog2 n + 1)`
for `n > 0`. -/
def ilog2 (n : Nat) : Nat := ilog2_fuel n n

/-- The fraction `n / d` is at least `2 ^ k`. -/
def ge_pow2 (n d : Nat) (k : Int) : Bool :=
  if 0 ≤ k then decide (d * 2 ^ k.toNat ≤ n) else decide (d ≤ n * 2 ^ (-k).toNat)

/-- Binary exponent `E` of a positive fraction: `2 ^ E ≤ n / d < 2 ^ (E + 1)`. -/
def binary_exponent (n d : Nat) : Int :=
  if ge_pow2 n d ((ilog2 n : Int) - (ilog2 d : Int)) then (ilog2 n : Int) - (ilog2 d : Int)
  else (ilog2 n : Int) - (ilog2 d : Int) - 1

/-- The integer nearest to `n / d`, the even one of two that are equally near. -/
def round_half_even (n d : Nat) : Nat :=
  if 2 * (n % d) < d then n / d
  else if d < 2 * (n % d) then n / d + 1
  else if (n / d) % 2 = 0 then n / d else n / d + 1

/-- A positive fraction `n / d` rounded to the nearest binary32 number, ties to
even: a significand of 24 bits, the unit in the last place not below
`2 ^ (-149)`, and infinity from `2 ^ 128` on. -/
def f32_round_pos (n d : Nat) : pixels_t :=
  let e : Int := max (binary_exponent n d - 23) (-149)
  let m : Nat :=
    if 0 ≤ e then round_half_even n (d * 2 ^ e.toNat)
    else round_half_even (n * 2 ^ (-e).toNat) d
  if 104 < e ∨ (e = 104 ∧ 2 ^ 24 ≤ m) then pixels_t.pos_inf
  else if 0 ≤ e then pixels_t.fin ((m * 2 ^ e.toNat : Nat) : Int) 1
  else pixels_t.fin (m : Int) (2 ^ (-e).toNat)

/-- An exact value rounded to the nearest binary32 number: what a `float`
operation with that exact result yields. -/
def f32_round : pixels_t → pixels_t
  | pixels_t.fin n d =>
    if n = 0 then pixels_t.fin 0 1
    else if 0 < n then f32_round_pos n.toNat d
    else (f32_round_pos (-n).toNat d).neg
  | x => x

/-- The variable `ppt_dim` of `resize` after its two assignments:
`(float)dimension / 100` and then `current * ppt_dim`, the `int` operands
converted to `float`, every operation in single precision. -/
def ppt_dim (dimension current : Int) : pixels_t :=
  let ppt : pixels_t := f32_round ((f32_round (pixels_t.of_int dimension)).div_uint 100)
  f32_round ((f32_round (pixels_t.of_int current)).mul ppt)

/-- The function `resize`, on the window returned by
`get_focused_view_include_floating` (`none` when there is none). The width or
height of the window is read before the test `if (focused)`, so a null window
is a fault and the final `return false` is not reached. -/
def resize (focused : Option swayc_t) (dimension : Int) (use_width : Bool)
    (dim_type : resize_dim_types) : Except Fault resize_call :=
  match focused with
  | none => .error .nullDeref
  | some focused =>
    let ppt : pixels_t :=
      if use_width then ppt_dim dimension focused.width else ppt_dim dimension focused.height
    if focused.is_floating then
      if dim_type = RESIZE_DIM_PPT then
        match ppt.cast_int with
        | .error e => .error e
        | .ok dimension => .ok (resize_call.resize_floating dimension use_width)
      else
        .ok (resize_call.resize_floating dimension use_width)
    else
      if dim_type ≠ RESIZE_DIM_PX then
        match ppt.cast_int with
        | .error e => .error e
        | .ok dimension => .ok (resize_call.resize_tiled dimension use_width)
      else
        .ok (resize_call.resize_tiled dimension use_width)

/-- The relative error bound of one rounding to binary32: `2 ^ (-24)`. -/
def f32_unit : ℚ := 1 / 16777216

/-- The value `p` is finite and within the relative error `err` of the exact
value `z`. -/
def approx (p : pixels_t) (z err : ℚ) : Prop :=
  ∃ (m : Int) (k : Nat), p = pixels_t.fin m k ∧ 0 < k ∧ |(m : ℚ) / (k : ℚ) - z| ≤ |z| * err

/-- An integer nearest to a rational, as the spec words the rounding of a
percentage: no integer is closer. -/
def is_nearest (n : Int) (q : ℚ) : Prop :=
  ∀ m : Int, |q - (n : ℚ)| ≤ |q - (m : ℚ)|

/-- The nearest ancestor below the root that has more than one child and the
split layout of the axis, for the container at a path (innermost index
first): the index of the child on the path and the path of that ancestor. -/
def nearest_split (use_width : Bool) (root : swayc_t) : List Nat → Option (Nat × List Nat)
  | [] => none
  | _ :: [] => none
  | idx :: p :: up =>
    match subtree root (p :: up).reverse with
    | none => nearest_split use_width root (p :: up)
    | some parent =>
      if parent.children.length > 1 ∧
          parent.layout = (if use_width then L_HORIZ else L_VERT) then
        some (idx, p :: up)
      else nearest_split use_width root (p :: up)

/-- No ancestor of the container at a path (innermost index first) has an auto
layout, and each has fewer than `2 ^ 31` children (`length` is a C `int`). -/
def plain_ancestors (root : swayc_t) : List Nat → Bool
  | [] => true
  | _ :: up =>
    (match subtree root up.reverse with
     | none => false
     | some parent =>
       !is_auto_layout parent.layout && decide (parent.children.length < 2 ^ 31)) &&
      plain_ancestors root up

/-- Container of the divergence example of `next_group_index`: auto-top, one
master, two slave groups, three slave children. -/
def part4 : swayc_t := auto_container L_AUTO_TOP 1 2 4

/-- Tree of the resolver example: a horizontal root holding a horizontal split
of a view and a tabbed container, which holds a vertical split of two views. -/
def nested_splits : swayc_t :=
  node L_HORIZ 0 0 1000 800
    [node L_HORIZ 0 0 1000 800
      [view 0 0 400 800,
       node L_TABBED 400 0 600 800
         [node L_VERT 400 0 600 800 [view 400 0 600 400, view 400 400 600 400]]]]

/-! ## Theorems -/

/-- C2 (partition coverage), evaluated on the code: in an auto-left container
with no master, two slave groups and three children, the range computed for
child 1 is `[1, 3)` and the range computed for child 2 is `[-1, 1)`: child 2 is
not in its own range, and that range leaves the slave interval `[0, 3)` and
overlaps the range of child 0. -/
theorem group_ranges_overlap :
    group_start_index (auto_container L_AUTO_LEFT 0 2 3) 1 = .ok 1 ∧
    group_end_index (auto_container L_AUTO_LEFT 0 2 3) 1 = .ok 3 ∧
    group_start_index (auto_container L_AUTO_LEFT 0 2 3) 2 = .ok (-1) ∧
    group_end_index (auto_container L_AUTO_LEFT 0 2 3) 2 = .ok 1 := by
  decide

/-- C3 (group monotonicity), evaluated on the code: in an auto-left container
with one master, two slave groups and six children, `group_start_index`
returns `-1` and `group_end_index` returns `2` for the slave child 5, so
`5 < group_end_index(5)` fails. -/
theorem group_end_index_before_index :
    group_start_index part6 5 = .ok (-1) ∧ group_end_index part6 5 = .ok 2 ∧
      ¬ ((5 : Int) < 2) := by
  decide

/-- C4 (reference partition), evaluated on the code: in an auto-left
container with one master, two slave groups and six children, the reference
group of child 4 is `[3, 6)`, while `group_start_index` returns `2` and
`group_end_index` returns `5` for it. -/
theorem group_bounds_differ_from_reference :
    ref_group_start part6 4 = some 3 ∧ group_start_index part6 4 = .ok 2 ∧
    ref_group_end part6 4 = some 6 ∧ group_end_index part6 4 = .ok 5 := by
  decide

/-- C5 (minimum size kept), evaluated on the code: a horizontal split of two
views of width 100, sane width 50, focused first view shrunk by 40. The
validation pass accepts, the commit pass hands `-40` to `recursive_resize`
for the focused view twice, and adding the deltas leaves it 20 wide. -/
theorem resize_tiled_breaks_minimum :
    child_widths (split2 100 100) [0] = some [100, 100] ∧
    resize_tiled 4 50 50 (split2 100 100) [0, 0] (-40) true =
      .ok (true,
        [call.recursive_resize [0, 0] (pixels_t.fin (-40) 1) WLC_RESIZE_EDGE_LEFT,
         call.recursive_resize [0, 0] (pixels_t.fin (-40) 1) WLC_RESIZE_EDGE_RIGHT,
         call.recursive_resize [0, 1] (pixels_t.fin 40 1) WLC_RESIZE_EDGE_LEFT,
         call.arrange_windows]) ∧
    child_widths
      (run_calls recursive_resize_spec id (split2 100 100)
        [call.recursive_resize [0, 0] (pixels_t.fin (-40) 1) WLC_RESIZE_EDGE_LEFT,
         call.recursive_resize [0, 0] (pixels_t.fin (-40) 1) WLC_RESIZE_EDGE_RIGHT,
         call.recursive_resize [0, 1] (pixels_t.fin 40 1) WLC_RESIZE_EDGE_LEFT]) [0]
      = some [20, 140] := by
  refine ⟨by decide, by decide, by decide⟩

/-- C7: `set_size_floating` on the width axis returns true and leaves the
window with width `c` and `x - trunc((c - w) / 2)`, where `c` is the desired
width after the clamp, `y` and height as before; on the height axis the same
with height and `y`. The scenario of the spec (width 200 at `x = 100`, set
width 300, clamp leaving 300) ends with width 300 at `x = 50`. -/
theorem set_size_floating_geometry (sane : swayc_t → Int × Int) (v : swayc_t)
    (new_dimension : Int) :
    ((set_size_floating sane_id (some (view 100 0 200 80)) 300 true).2.map
        (fun w => (w.x, w.y, w.width, w.height)) = some (50, 0, 300, 80)) ∧
    (∃ v' : swayc_t, set_size_floating sane (some v) new_dimension true = (true, some v') ∧
      v'.width = (sane { v with desired_width := new_dimension }).1 ∧
      v'.x = v.x - Int.tdiv ((sane { v with desired_width := new_dimension }).1 - v.width) 2 ∧
      v'.y = v.y ∧ v'.height = v.height) ∧
    (∃ v' : swayc_t, set_size_floating sane (some v) new_dimension false = (true, some v') ∧
      v'.height = (sane { v with desired_height := new_dimension }).2 ∧
      v'.y = v.y - Int.tdiv ((sane { v with desired_height := new_dimension }).2 - v.height) 2 ∧
      v'.x = v.x ∧ v'.width = v.width) := by
  refine ⟨by decide, ?_, ?_⟩
  · refine ⟨_, rfl, ?_, ?_, ?_, ?_⟩ <;> simp [floating_view_sane_size]
    omega
  · refine ⟨_, rfl, ?_, ?_, ?_, ?_⟩ <;> simp [floating_view_sane_size]
    omega

theorem tdiv_round_trip (a d : Int) :
    a + Int.tdiv d 2 * -1 + Int.tdiv (-d) 2 * -1 = a := by
  rw [Int.neg_tdiv]; omega

/-- C8: when the clamp leaves the requests for `w + d` and for `w` unchanged,
`resize_floating` by `d` followed by `resize_floating` by `-d` on the same
axis both return true and give back the position and size of the window. -/
theorem resize_floating_round_trip (sane : swayc_t → Int × Int) (v : swayc_t) (d : Int)
    (use_width : Bool)
    (h1 : clamp_keeps sane use_width (dimension use_width v + d))
    (h2 : clamp_keeps sane use_width (dimension use_width v)) :
    ∃ v1 v2 : swayc_t,
      resize_floating sane (some v) d use_width = (true, some v1) ∧
      resize_floating sane (some v1) (-d) use_width = (true, some v2) ∧
      v2.x = v.x ∧ v2.y = v.y ∧ v2.width = v.width ∧ v2.height = v.height := by
  cases use_width
  · have e1 : ∀ u : swayc_t, u.desired_height = v.height + d → (sane u).2 = v.height + d := by
      intro u; have := h1 u; simpa [dimension] using this
    have e2 : ∀ u : swayc_t, u.desired_height = v.height → (sane u).2 = v.height := by
      intro u; have := h2 u; simpa [dimension] using this
    refine ⟨_, _, rfl, rfl, ?_⟩
    simp only [floating_view_sane_size]
    rw [e1 _ rfl]
    simp only [add_neg_cancel_right]
    rw [e2 _ rfl]
    have e : v.height + d - v.height = d := by omega
    have e3 : v.height - (v.height + d) = -d := by omega
    refine ⟨?_, ?_, ?_, ?_⟩
    · trivial
    · show v.y + _ + _ = v.y
      simp only [e, e3]
      exact tdiv_round_trip v.y d
    · trivial
    · rfl
  · have e1 : ∀ u : swayc_t, u.desired_width = v.width + d → (sane u).1 = v.width + d := by
      intro u; have := h1 u; simpa [dimension] using this
    have e2 : ∀ u : swayc_t, u.desired_width = v.width → (sane u).1 = v.width := by
      intro u; have := h2 u; simpa [dimension] using this
    refine ⟨_, _, rfl, rfl, ?_⟩
    simp only [floating_view_sane_size]
    rw [e1 _ rfl]
    simp only [add_neg_cancel_right]
    rw [e2 _ rfl]
    have e : v.width + d - v.width = d := by omega
    have e3 : v.width - (v.width + d) = -d := by omega
    refine ⟨?_, ?_, ?_, ?_⟩
    · show v.x + _ + _ = v.x
      simp only [e, e3]
      exact tdiv_round_trip v.x d
    · trivial
    · rfl
    · trivial

theorem resize_floating_round_trip_witness :
    ∃ v1 v2 : swayc_t,
      resize_floating sane_id (some (view 100 40 200 80)) 7 true = (true, some v1) ∧
      resize_floating sane_id (some v1) (-7) true = (true, some v2) ∧
      v2.x = 100 ∧ v2.y = 40 ∧ v2.width = 200 ∧ v2.height = 80 :=
  resize_floating_round_trip sane_id (view 100 40 200 80) 7 true
    (by intro u; simp [sane_id]) (by intro u; simp [sane_id])

theorem resolve_loop_no_absorber (fuel : Nat) (use_width : Bool) (root : swayc_t) :
    ∀ (rp : List Nat) (st : resolved), no_absorber fuel use_width root rp = true →
      ∃ st', resolve_loop fuel use_width root rp st = .ok st' ∧
        st'.parent = (if rp = [] then st.parent else some []) := by
  intro rp
  induction rp with
  | nil => intro st _; exact ⟨st, rfl, by simp⟩
  | cons idx up ih =>
    intro st h
    unfold no_absorber at h
    unfold resolve_loop
    cases hsub : subtree root up.reverse with
    | none => rw [hsub] at h; simp at h
    | some parent =>
      rw [hsub] at h
      simp only [Bool.and_eq_true, Bool.or_eq_true, Bool.not_eq_true', decide_eq_true_eq] at h
      obtain ⟨hq, hup⟩ := h
      simp only []
      have tail_parent : ∀ st0 : resolved, st0.parent = some up →
          ∃ st', resolve_loop fuel use_width root up st0 = .ok st' ∧ st'.parent = some [] := by
        intro st0 hst0
        obtain ⟨st', h1, h2⟩ := ih st0 hup
        refine ⟨st', h1, ?_⟩
        rw [h2]
        by_cases hu : up = []
        · rw [if_pos hu, hst0, hu]
        · rw [if_neg hu]
      by_cases hc : candidate use_width parent = true
      · rw [if_pos hc]
        rcases hq with hq | hq
        · rw [hq] at hc; cases hc
        · rw [hq]
          simp only [ne_eq, not_true_eq_false, or_self, if_false]
          exact tail_parent
            { parent := some up, idx_focused := (idx : Int),
              use_major := major_axis use_width parent, nb_before := 0, nb_after := 0 } rfl
      · rw [if_neg hc]
        exact tail_parent { st with parent := some up } rfl

/-- C9: if the focused leaf lies below the root and no ancestor of it absorbs the
resize, `resize_tiled` returns true, makes no collaborator call, and the tree
is the same afterwards. -/
theorem resize_tiled_no_ancestor (fuel : Nat) (min_sane_w min_sane_h : Int)
    (root : swayc_t) (focus : List Nat) (amount : Int) (use_width : Bool)
    (hne : focus ≠ [])
    (hfocus : (subtree root focus).isSome = true)
    (hno : no_absorber fuel use_width root focus.reverse = true) :
    ∃ calls, resize_tiled fuel min_sane_w min_sane_h root focus amount use_width
        = .ok (true, calls) ∧ calls = [] ∧
      ∀ rr arr, run_calls rr arr root calls = root := by
  refine ⟨[], ?_, rfl, fun _ _ => rfl⟩
  obtain ⟨c, hc⟩ := Option.isSome_iff_exists.mp hfocus
  obtain ⟨st', h1, h2⟩ := resolve_loop_no_absorber fuel use_width root focus.reverse
    { parent := focus.reverse.tail?, idx_focused := 0, use_major := false,
      nb_before := 0, nb_after := 0 } hno
  have hr : focus.reverse ≠ [] := by simpa using hne
  rw [if_neg hr] at h2
  unfold resize_tiled resolve
  rw [hc]
  simp only [h1, h2]

theorem resize_tiled_no_ancestor_witness :
    ∃ calls, resize_tiled 0 50 50 single_chain [0, 0, 0] 30 true = .ok (true, calls) ∧
      calls = [] ∧ ∀ rr arr, run_calls rr arr single_chain calls = single_chain :=
  resize_tiled_no_ancestor 0 50 50 single_chain [0, 0, 0] 30 true (by decide) (by decide)
    (by decide)

theorem group_index_loop_stuck (n : Nat) :
    group_index_loop (auto_container L_AUTO_LEFT 1 2 5) 3 n 1 0 = .error .outOfFuel := by
  induction n with
  | zero => rfl
  | succ k ih =>
    rw [group_index_loop]
    simpa using ih

/-- C10 (group ordinal), evaluated on the code: in an auto-left container with
one master, two slave groups and five children, `group_index` of child 3 (in
the second slave group) returns for no amount of fuel; and with no master,
one slave group and two children it returns `1` for child 0, whose group is
the first along the major axis. -/
theorem group_index_never_returns :
    (∀ fuel, group_index fuel (auto_container L_AUTO_LEFT 1 2 5) 3 = .error .outOfFuel) ∧
      group_index 1 (auto_container L_AUTO_LEFT 0 1 2) 0 = .ok 1 := by
  refine ⟨?_, by decide⟩
  intro fuel
  have h1 : to_int (auto_container L_AUTO_LEFT 1 2 5).nb_master = 1 := by decide
  unfold group_index
  rw [h1, group_index_loop_stuck]
  rfl

theorem resolve_loop_result (fuel : Nat) (use_width : Bool) (root : swayc_t) :
    ∀ (rp : List Nat) (st0 st : resolved), resolve_loop fuel use_width root rp st0 = .ok st →
      (rp = [] ∧ st = st0) ∨ st.parent = some [] ∨
      ∃ (up : List Nat) (idx : Nat) (parent : swayc_t), st.parent = some up ∧
        subtree root up.reverse = some parent ∧ candidate use_width parent = true ∧
        st.idx_focused = (idx : Int) ∧ st.use_major = major_axis use_width parent ∧
        neighbours fuel st.use_major parent (idx : Int) = .ok (st.nb_before, st.nb_after) ∧
        (st.nb_before ≠ 0 ∨ st.nb_after ≠ 0) := by
  intro rp
  induction rp with
  | nil =>
    intro st0 st h
    simp only [resolve_loop, Except.ok.injEq] at h
    exact Or.inl ⟨rfl, h.symm⟩
  | cons idx up ih =>
    intro st0 st h
    have pass : ∀ st1 : resolved, st1.parent = some up →
        resolve_loop fuel use_width root up st1 = .ok st →
        st.parent = some [] ∨
        ∃ (up : List Nat) (idx : Nat) (parent : swayc_t), st.parent = some up ∧
          subtree root up.reverse = some parent ∧ candidate use_width parent = true ∧
          st.idx_focused = (idx : Int) ∧ st.use_major = major_axis use_width parent ∧
          neighbours fuel st.use_major parent (idx : Int) = .ok (st.nb_before, st.nb_after) ∧
          (st.nb_before ≠ 0 ∨ st.nb_after ≠ 0) := by
      intro st1 hp1 h1
      rcases ih st1 st h1 with ⟨hup, hst⟩ | h2 | h3
      · left; rw [hst, hp1, hup]
      · exact Or.inl h2
      · exact Or.inr h3
    right
    unfold resolve_loop at h
    cases hsub : subtree root up.reverse with
    | none => rw [hsub] at h; cases h
    | some parent =>
      rw [hsub] at h
      simp only [] at h
      by_cases hc : candidate use_width parent = true
      · rw [if_pos hc] at h
        cases hn : neighbours fuel (major_axis use_width parent) parent (idx : Int) with
        | error e => rw [hn] at h; cases h
        | ok ba =>
          obtain ⟨b, a⟩ := ba
          rw [hn] at h
          simp only [] at h
          by_cases hb : b ≠ 0 ∨ a ≠ 0
          · rw [if_pos hb] at h
            cases h
            exact Or.inr ⟨up, idx, parent, rfl, hsub, hc, rfl, rfl, hn, hb⟩
          · rw [if_neg hb] at h
            exact pass _ rfl h
      · rw [if_neg hc] at h
        exact pass _ rfl h

theorem commit_loop_cons (use_width : Bool) (amount : Int) (st : resolved)
    (parent_path : List Nat) (focused : swayc_t) (i : Nat) (a : swayc_t) (A : List swayc_t) :
    commit_loop use_width amount st parent_path focused i (a :: A) =
      commit_sibling use_width amount st parent_path focused i a ++
        commit_loop use_width amount st parent_path focused (i + 1) A := rfl

theorem commit_loop_append (use_width : Bool) (amount : Int) (st : resolved)
    (parent_path : List Nat) (focused : swayc_t) :
    ∀ (A B : List swayc_t) (i : Nat),
      commit_loop use_width amount st parent_path focused i (A ++ B) =
        commit_loop use_width amount st parent_path focused i A ++
          commit_loop use_width amount st parent_path focused (i + A.length) B := by
  intro A
  induction A with
  | nil => intro B i; simp [commit_loop]
  | cons a A ih =>
    intro B i
    have e : i + (a :: A).length = i + 1 + A.length := by simp only [List.length_cons]; omega
    rw [e, List.cons_append, commit_loop_cons, commit_loop_cons, ih B (i + 1),
      List.append_assoc]

theorem sum_pixels_append (xs ys : List call) :
    sum_pixels (xs ++ ys) = sum_pixels xs + sum_pixels ys := by
  induction xs with
  | nil => simp [sum_pixels]
  | cons c xs ih =>
    cases c with
    | recursive_resize p px e => simp [sum_pixels, ih, add_assoc]
    | arrange_windows => simp [sum_pixels, ih]

theorem commit_sibling_before (use_width : Bool) (amount : Int) (st : resolved)
    (parent_path : List Nat) (focused a : swayc_t) (i : Nat)
    (ha : position use_width a < position use_width focused) :
    ∃ edge, commit_sibling use_width amount st parent_path focused i a =
      [call.recursive_resize (parent_path ++ [i])
        (side_pixels amount st.nb_before st.nb_before st.nb_after) edge] := by
  cases use_width
  · simp only [position, Bool.false_eq_true, if_false] at ha
    have h2 : ¬ (a.y > focused.y) := by omega
    simp [commit_sibling, sibling_pixels, side_pixels, ha, h2]
  · simp only [position, if_true] at ha
    have h2 : ¬ (a.x > focused.x) := by omega
    simp [commit_sibling, sibling_pixels, side_pixels, ha, h2]

theorem commit_sibling_after (use_width : Bool) (amount : Int) (st : resolved)
    (parent_path : List Nat) (focused a : swayc_t) (i : Nat)
    (ha : position use_width focused < position use_width a) :
    ∃ edge, commit_sibling use_width amount st parent_path focused i a =
      [call.recursive_resize (parent_path ++ [i])
        (side_pixels amount st.nb_after st.nb_before st.nb_after) edge] := by
  cases use_width
  · simp only [position, Bool.false_eq_true, if_false] at ha
    have h2 : ¬ (a.y < focused.y) := by omega
    simp [commit_sibling, sibling_pixels, side_pixels, ha, h2]
  · simp only [position, if_true] at ha
    have h2 : ¬ (a.x < focused.x) := by omega
    simp [commit_sibling, sibling_pixels, side_pixels, ha, h2]

theorem commit_sibling_same (use_width : Bool) (amount : Int) (st : resolved)
    (parent_path : List Nat) (focused : swayc_t) (i : Nat) :
    ∃ e1 e2, commit_sibling use_width amount st parent_path focused i focused =
      [call.recursive_resize (parent_path ++ [i]) (pixels_t.of_int amount) e1,
       call.recursive_resize (parent_path ++ [i]) (pixels_t.of_int amount) e2] := by
  cases use_width <;> simp [commit_sibling, sibling_pixels]

theorem commit_loop_uniform (use_width : Bool) (amount : Int) (st : resolved)
    (parent_path : List Nat) (focused : swayc_t) (P : pixels_t) :
    ∀ (A : List swayc_t) (i : Nat),
      (∀ a ∈ A, ∀ k, ∃ edge, commit_sibling use_width amount st parent_path focused k a =
        [call.recursive_resize (parent_path ++ [k]) P edge]) →
      sum_pixels (commit_loop use_width amount st parent_path focused i A) =
        (A.length : ℚ) * P.to_rat ∧
      ∀ c ∈ commit_loop use_width amount st parent_path focused i A,
        ∃ path edge, c = call.recursive_resize path P edge := by
  intro A
  induction A with
  | nil => intro i _; simp [commit_loop, sum_pixels]
  | cons a A ih =>
    intro i h
    obtain ⟨edge, he⟩ := h a (List.mem_cons_self _ _) i
    obtain ⟨ih1, ih2⟩ := ih (i + 1) (fun b hb => h b (List.mem_cons_of_mem _ hb))
    rw [commit_loop_cons, he]
    constructor
    · rw [sum_pixels_append, ih1]
      simp only [sum_pixels, List.length_cons]
      push_cast
      ring
    · intro c hc
      rcases List.mem_append.mp hc with hc | hc
      · simp only [List.mem_singleton] at hc
        exact ⟨_, _, hc⟩
      · exact ih2 c hc

theorem side_pixels_sum (amount : Int) (nb_before nb_after : Nat)
    (h : nb_before ≠ 0 ∨ nb_after ≠ 0) :
    (nb_before : ℚ) * (side_pixels amount nb_before nb_before nb_after).to_rat +
      (2 * (amount : ℚ) +
        (nb_after : ℚ) * (side_pixels amount nb_after nb_before nb_after).to_rat) = amount := by
  by_cases hb : nb_before = 0
  · have ha : nb_after ≠ 0 := by
      rcases h with h | h
      · exact absurd hb h
      · exact h
    have ha' : (nb_after : ℚ) ≠ 0 := by exact_mod_cast ha
    subst hb
    simp [side_pixels, pixels_t.of_int, pixels_t.neg, pixels_t.div_uint, pixels_t.to_rat, ha]
    field_simp
    ring
  · have hb' : (nb_before : ℚ) ≠ 0 := by exact_mod_cast hb
    by_cases ha : nb_after = 0
    · subst ha
      simp [side_pixels, pixels_t.of_int, pixels_t.neg, pixels_t.div_uint, pixels_t.to_rat, hb]
      field_simp
      ring
    · have ha' : (nb_after : ℚ) ≠ 0 := by exact_mod_cast ha
      simp [side_pixels, pixels_t.of_int, pixels_t.neg, pixels_t.div_uint, pixels_t.to_rat, hb, ha]
      field_simp
      ring

theorem side_pixels_finite (amount : Int) (nb nb_before nb_after : Nat) (h : nb ≠ 0) :
    (side_pixels amount nb nb_before nb_after).finite = true := by
  unfold side_pixels
  split <;> simp [pixels_t.of_int, pixels_t.neg, pixels_t.div_uint, pixels_t.finite, h]

theorem neighbours_split (fuel : Nat) (parent : swayc_t) (idx : Nat)
    (hauto : is_auto_layout parent.layout = false) (hidx : idx < parent.children.length)
    (hlen : parent.children.length < 2 ^ 31) :
    neighbours fuel false parent (idx : Int) = .ok (idx, parent.children.length - idx - 1) := by
  have h0 : ¬ ((idx : Int) < 0) := by omega
  simp only [neighbours, Bool.false_eq_true, if_false, group_start_index, next_group_index, hauto,
    h0, not_false_eq_true, true_or, or_true, if_true, swayc_t.length, Except.ok.injEq,
    Prod.mk.injEq, to_uint]
  constructor <;> omega

theorem sum_pixels_finite_split (use_width : Bool) (amount : Int) (st : resolved)
    (parent_path : List Nat) (focused : swayc_t) (A B : List swayc_t)
    (hA : ∀ a ∈ A, position use_width a < position use_width focused)
    (hB : ∀ b ∈ B, position use_width focused < position use_width b)
    (hnb : st.nb_before = A.length) (hna : st.nb_after = B.length)
    (hne : st.nb_before ≠ 0 ∨ st.nb_after ≠ 0) :
    (∀ c ∈ commit_loop use_width amount st parent_path focused 0 (A ++ focused :: B),
        c.finite = true) ∧
      sum_pixels (commit_loop use_width amount st parent_path focused 0 (A ++ focused :: B))
        = (amount : ℚ) := by
  obtain ⟨sA, fA⟩ := commit_loop_uniform use_width amount st parent_path focused
    (side_pixels amount st.nb_before st.nb_before st.nb_after) A 0
    (fun a ha k => commit_sibling_before use_width amount st parent_path focused a k (hA a ha))
  obtain ⟨sB, fB⟩ := commit_loop_uniform use_width amount st parent_path focused
    (side_pixels amount st.nb_after st.nb_before st.nb_after) B (0 + A.length + 1)
    (fun b hb k => commit_sibling_after use_width amount st parent_path focused b k (hB b hb))
  obtain ⟨e1, e2, hF⟩ := commit_sibling_same use_width amount st parent_path focused
    (0 + A.length)
  rw [commit_loop_append, commit_loop_cons, hF]
  constructor
  · intro c hc
    rcases List.mem_append.mp hc with hc | hc
    · obtain ⟨path, edge, rfl⟩ := fA c hc
      have hA0 : A ≠ [] := by
        intro h; rw [h] at hc; simp [commit_loop] at hc
      have : st.nb_before ≠ 0 := by
        rw [hnb]; exact fun h => hA0 (List.length_eq_zero.mp h)
      exact side_pixels_finite amount _ _ _ this
    · rcases List.mem_append.mp hc with hc | hc
      · simp only [List.mem_cons, List.mem_singleton, List.not_mem_nil, or_false] at hc
        rcases hc with rfl | rfl <;> rfl
      · obtain ⟨path, edge, rfl⟩ := fB c hc
        have hB0 : B ≠ [] := by
          intro h; rw [h] at hc; simp [commit_loop] at hc
        have : st.nb_after ≠ 0 := by
          rw [hna]; exact fun h => hB0 (List.length_eq_zero.mp h)
        exact side_pixels_finite amount _ _ _ this
  · have hmid : ∀ path, sum_pixels
        [call.recursive_resize path (pixels_t.of_int amount) e1,
         call.recursive_resize path (pixels_t.of_int amount) e2] = 2 * (amount : ℚ) := by
      intro path
      simp only [sum_pixels, pixels_t.of_int, pixels_t.to_rat]
      push_cast
      ring
    rw [sum_pixels_append, sum_pixels_append, sA, sB, hmid]
    have h := side_pixels_sum amount st.nb_before st.nb_after hne
    rw [← hnb, ← hna]
    exact h

/-- C6: when the ancestor search of a width resize stops at a horizontal split
below the root (of a height resize, at a vertical split) whose children have
strictly increasing positions on the axis, and the validation pass accepts,
the parent has at least two children, every delta handed to `recursive_resize`
is finite, and over exact rationals the deltas of the whole commit pass sum to
`amount`. -/
theorem resize_tiled_conserves (fuel : Nat) (min_sane_w min_sane_h : Int)
    (root : swayc_t) (focus : List Nat) (amount : Int) (use_width : Bool)
    (st : resolved) (p : Nat) (ps : List Nat) (parent : swayc_t) (calls : List call)
    (hres : resolve fuel use_width root focus = .ok st)
    (hpar : st.parent = some (p :: ps))
    (hP : subtree root (p :: ps).reverse = some parent)
    (hlay : parent.layout = if use_width then L_HORIZ else L_VERT)
    (hlen : parent.children.length < 2 ^ 31)
    (hsorted : (parent.children.map (position use_width)).Pairwise (fun a b => a < b))
    (hrun : resize_tiled fuel min_sane_w min_sane_h root focus amount use_width
      = .ok (true, calls))
    (hvalid : calls ≠ []) :
    2 ≤ parent.children.length ∧ (∀ c ∈ calls, c.finite = true) ∧
      sum_pixels calls = (amount : ℚ) := by
  -- the state in which the ancestor search was left
  have hloop : resolve_loop fuel use_width root focus.reverse
      { parent := focus.reverse.tail?, idx_focused := 0, use_major := false,
        nb_before := 0, nb_after := 0 } = .ok st := by
    unfold resolve at hres
    cases hs : subtree root focus with
    | none => rw [hs] at hres; cases hres
    | some c => rw [hs] at hres; exact hres
  have hauto : is_auto_layout parent.layout = false := by
    rw [hlay]; cases use_width <;> rfl
  have hmajor : major_axis use_width parent = false := by
    unfold major_axis; rw [hlay]; cases use_width <;> rfl
  rcases resolve_loop_result fuel use_width root _ _ _ hloop with ⟨hnil, hst⟩ | h0 | hstop
  · rw [hst, hnil] at hpar; cases hpar
  · rw [h0] at hpar; cases hpar
  obtain ⟨up, idx, parent', hup, hsub, hcand, hidx, hmaj, hnb, hne⟩ := hstop
  rw [hpar] at hup
  cases hup
  rw [hP] at hsub
  cases hsub
  rw [hmajor] at hmaj
  -- the commit pass ran
  unfold resize_tiled at hrun
  rw [hres] at hrun
  simp only [hpar, hP] at hrun
  cases hitem : item parent st.idx_focused with
  | none => rw [hitem] at hrun; cases hrun
  | some focused =>
    rw [hitem] at hrun
    simp only [] at hrun
    cases hv : validate fuel use_width min_sane_w min_sane_h amount st parent focused with
    | error e => rw [hv] at hrun; cases hrun
    | ok valid =>
      rw [hv] at hrun
      simp only [] at hrun
      cases valid with
      | false =>
        simp only [Bool.false_eq_true, if_false, Except.ok.injEq, Prod.mk.injEq, true_and] at hrun
        exact absurd hrun.symm hvalid
      | true =>
        simp only [if_true, Except.ok.injEq, Prod.mk.injEq, true_and] at hrun
        -- the focused child and the counts
        rw [hidx] at hitem
        have h0 : ¬ ((idx : Int) < 0) := by omega
        simp only [item, h0, if_false, Int.toNat_ofNat] at hitem
        obtain ⟨hlt, hget⟩ := List.getElem?_eq_some_iff.mp hitem
        rw [hmaj, neighbours_split fuel parent idx hauto hlt hlen] at hnb
        simp only [Except.ok.injEq, Prod.mk.injEq] at hnb
        obtain ⟨hb, ha⟩ := hnb
        have hsplit : parent.children =
            parent.children.take idx ++ focused :: parent.children.drop (idx + 1) := by
          rw [← hget, List.getElem_cons_drop, List.take_append_drop]
        rw [hsplit, List.map_append, List.map_cons, List.pairwise_append] at hsorted
        obtain ⟨_, hs2, hs3⟩ := hsorted
        have hA : ∀ a ∈ parent.children.take idx,
            position use_width a < position use_width focused := by
          intro a ha'
          exact hs3 _ (List.mem_map_of_mem _ ha') _ (List.mem_cons_self _ _)
        have hB : ∀ b ∈ parent.children.drop (idx + 1),
            position use_width focused < position use_width b := by
          intro b hb'
          exact (List.pairwise_cons.mp hs2).1 _ (List.mem_map_of_mem _ hb')
        have hlenA : st.nb_before = (parent.children.take idx).length := by
          rw [← hb, List.length_take]; omega
        have hlenB : st.nb_after = (parent.children.drop (idx + 1)).length := by
          rw [← ha, List.length_drop]; omega
        obtain ⟨hfin, hsum⟩ := sum_pixels_finite_split use_width amount st (p :: ps).reverse
          focused _ _ hA hB hlenA hlenB hne
        rw [← hsplit] at hfin hsum
        refine ⟨?_, ?_, ?_⟩
        · simp only [candidate, Bool.and_eq_true, decide_eq_true_eq] at hcand
          omega
        · intro c hc
          rw [← hrun] at hc
          rcases List.mem_append.mp hc with hc | hc
          · exact hfin c hc
          · simp only [List.mem_singleton] at hc
            rw [hc]; rfl
        · rw [← hrun, sum_pixels_append, hsum]
          simp [sum_pixels]

theorem resize_tiled_conserves_witness :
    2 ≤ (node L_HORIZ 0 0 (600 + 400) 800 [view 0 0 600 800, view 600 0 400 800]).children.length ∧
      (∀ c ∈ [call.recursive_resize [0, 0] (pixels_t.fin (-100) 1) WLC_RESIZE_EDGE_RIGHT,
          call.recursive_resize [0, 1] (pixels_t.fin 100 1) WLC_RESIZE_EDGE_LEFT,
          call.recursive_resize [0, 1] (pixels_t.fin 100 1) WLC_RESIZE_EDGE_RIGHT,
          call.arrange_windows], c.finite = true) ∧
      sum_pixels [call.recursive_resize [0, 0] (pixels_t.fin (-100) 1) WLC_RESIZE_EDGE_RIGHT,
          call.recursive_resize [0, 1] (pixels_t.fin 100 1) WLC_RESIZE_EDGE_LEFT,
          call.recursive_resize [0, 1] (pixels_t.fin 100 1) WLC_RESIZE_EDGE_RIGHT,
          call.arrange_windows] = ((100 : Int) : ℚ) :=
  resize_tiled_conserves 4 50 50 (split2 600 400) [0, 1] 100 true
    { parent := some [0], idx_focused := 1, use_major := false, nb_before := 1, nb_after := 0 }
    0 [] (node L_HORIZ 0 0 (600 + 400) 800 [view 0 0 600 800, view 600 0 400 800])
    _ (by decide) rfl rfl rfl (by decide) (by decide) (by decide) (by decide)

theorem next_group_index_loop_stuck (n : Nat) :
    next_group_index_loop part4 3 n 3 0 = .error .outOfFuel := by
  induction n with
  | zero => rfl
  | succ k ih =>
    rw [next_group_index_loop]
    simpa using ih

/-- C11 (walking the groups), evaluated on the code: in an auto-top container
with one master, two slave groups and four children, `next_group_index` for
the last child, `after = 3`, returns for no amount of fuel: the loop reaches
child 3 with group size `1 / 2 = 0` and stays there. -/
theorem next_group_index_never_returns :
    ∀ fuel, next_group_index fuel part4 3 = .error .outOfFuel := by
  intro fuel
  have h1 : next_group_index fuel part4 3 = next_group_index_loop part4 3 fuel 1 0 := by
    unfold next_group_index; rfl
  rw [h1]
  match fuel with
  | 0 => rfl
  | 1 => rfl
  | 2 => rfl
  | n + 3 =>
    have h2 : next_group_index_loop part4 3 (n + 3) 1 0 = next_group_index_loop part4 3 n 3 0 := by
      rfl
    rw [h2]
    exact next_group_index_loop_stuck n

/-- C12 (group end outside the slave region), evaluated on the code: in an
auto-left container with one master, two slave groups and six children,
`group_end_index` of the master child 0 returns `9`, not the number of
children `6`; `group_start_index`, which tests for a master index, returns
`0` there. -/
theorem group_end_index_of_master :
    group_end_index part6 0 = .ok 9 ∧ part6.length = 6 ∧ group_start_index part6 0 = .ok 0 := by
  decide

/-- C18 (agreement of the group boundaries), evaluated on the code: in an
auto-left container with one master, two slave groups and six children,
`next_group_index` of the slave child 3 returns `4` and `group_end_index`
returns `6`. -/
theorem next_group_index_differs_from_group_end :
    next_group_index 4 part6 3 = .ok 4 ∧ group_end_index part6 3 = .ok 6 := by
  decide

/-- C19 (no division by zero), evaluated on the code: in an auto-left
container with one master, three slave groups and three children (two slave
children), the group size is `2 / 3 = 0` and both `group_start_index` and
`group_end_index` of the slave child 1 divide by it. -/
theorem group_bounds_divide_by_zero :
    slave_count (auto_container L_AUTO_LEFT 1 3 3) = 2 ∧
    udiv (slave_count (auto_container L_AUTO_LEFT 1 3 3)) 3 = .ok 0 ∧
    group_start_index (auto_container L_AUTO_LEFT 1 3 3) 1 = .error .divByZero ∧
    group_end_index (auto_container L_AUTO_LEFT 1 3 3) 1 = .error .divByZero := by
  decide

/-- C20 (major-axis counts do not wrap), evaluated on the code: in an auto-left
container with no master, one slave group and three children, `group_index`
of child 0 returns `1` while `group_count` is `1`, and the resolver computes
`nb_before = 1` and `nb_after = 1 - 1 - 1`, which wraps to `2 ^ 64 - 1`. -/
theorem group_index_not_below_group_count :
    group_index 1 (auto_container L_AUTO_LEFT 0 1 3) 0 = .ok 1 ∧
    group_count (auto_container L_AUTO_LEFT 0 1 3) = 1 ∧
    neighbours 1 true (auto_container L_AUTO_LEFT 0 1 3) 0 = .ok (1, 2 ^ 64 - 1) := by
  decide

theorem tdiv_two_bounds (z : Int) :
    |z - 2 * Int.tdiv z 2| ≤ 1 ∧ (z % 2 = 0 → z - 2 * Int.tdiv z 2 = 0) := by
  rcases Int.le_total 0 z with h | h
  · rw [Int.tdiv_eq_ediv h (by decide)]
    constructor
    · rw [abs_le]; omega
    · omega
  · have e : z = -(-z) := by omega
    have h2 : Int.tdiv z 2 = -((-z) / 2) := by
      conv_lhs => rw [e, Int.neg_tdiv, Int.tdiv_eq_ediv (by omega) (by decide)]
    rw [h2]
    constructor
    · rw [abs_le]; omega
    · omega

/-- C15: after `set_size_floating` on the width axis the doubled centre
`2 * x + width` differs from its value before the call by at most 1, and not
at all when `c - w` is even, `c` being the desired width after the clamp; the
same holds for `2 * y + height` on the height axis. -/
theorem set_size_floating_centre (sane : swayc_t → Int × Int) (v : swayc_t)
    (new_dimension : Int) :
    (∃ v' : swayc_t, set_size_floating sane (some v) new_dimension true = (true, some v') ∧
      |(2 * v'.x + v'.width) - (2 * v.x + v.width)| ≤ 1 ∧
      (((sane { v with desired_width := new_dimension }).1 - v.width) % 2 = 0 →
        2 * v'.x + v'.width = 2 * v.x + v.width)) ∧
    (∃ v' : swayc_t, set_size_floating sane (some v) new_dimension false = (true, some v') ∧
      |(2 * v'.y + v'.height) - (2 * v.y + v.height)| ≤ 1 ∧
      (((sane { v with desired_height := new_dimension }).2 - v.height) % 2 = 0 →
        2 * v'.y + v'.height = 2 * v.y + v.height)) := by
  constructor
  · refine ⟨_, rfl, ?_, ?_⟩
    · have h := (tdiv_two_bounds ((sane { v with desired_width := new_dimension }).1 - v.width)).1
      simp only [floating_view_sane_size]
      rw [abs_le] at h ⊢
      constructor <;> linarith [h.1, h.2]
    · intro hev
      have h := (tdiv_two_bounds
        ((sane { v with desired_width := new_dimension }).1 - v.width)).2 hev
      simp only [floating_view_sane_size]
      linarith
  · refine ⟨_, rfl, ?_, ?_⟩
    · have h := (tdiv_two_bounds ((sane { v with desired_height := new_dimension }).2 - v.height)).1
      simp only [floating_view_sane_size]
      rw [abs_le] at h ⊢
      constructor <;> linarith [h.1, h.2]
    · intro hev
      have h := (tdiv_two_bounds
        ((sane { v with desired_height := new_dimension }).2 - v.height)).2 hev
      simp only [floating_view_sane_size]
      linarith

theorem set_size_floating_centre_witness :
    ∃ v' : swayc_t, set_size_floating sane_id (some (view 100 40 200 80)) 300 true
        = (true, some v') ∧ 2 * v'.x + v'.width = 2 * 100 + 200 := by
  obtain ⟨v', h1, _, h3⟩ := (set_size_floating_centre sane_id (view 100 40 200 80) 300).1
  exact ⟨v', h1, h3 (by decide)⟩

theorem subtree_snoc (i : Nat) :
    ∀ (xs : List Nat) (root : swayc_t),
      subtree root (xs ++ [i]) =
        match subtree root xs with
        | none => none
        | some parent => parent.children[i]? := by
  intro xs
  induction xs with
  | nil =>
    intro root
    simp only [List.nil_append, subtree]
    cases root.children[i]? <;> rfl
  | cons x xs ih =>
    intro root
    simp only [List.cons_append, subtree]
    cases root.children[x]? with
    | none => rfl
    | some c => exact ih c

theorem major_axis_plain (use_width : Bool) (parent : swayc_t)
    (h : is_auto_layout parent.layout = false) : major_axis use_width parent = false := by
  cases use_width <;> cases hl : parent.layout <;> simp_all [major_axis, is_auto_layout]

theorem candidate_plain (use_width : Bool) (parent : swayc_t)
    (h : is_auto_layout parent.layout = false) :
    candidate use_width parent = true ↔
      (parent.children.length > 1 ∧
        parent.layout = (if use_width then L_HORIZ else L_VERT)) := by
  cases use_width <;> simp [candidate, h]

theorem resolve_loop_plain (fuel : Nat) (use_width : Bool) (root : swayc_t) :
    ∀ (rp : List Nat) (st0 : resolved),
      (subtree root rp.reverse).isSome = true →
      plain_ancestors root rp = true →
      match nearest_split use_width root rp with
      | some (idx, up) =>
        ∃ parent, subtree root up.reverse = some parent ∧ idx < parent.children.length ∧
          resolve_loop fuel use_width root rp st0 = .ok
            { parent := some up, idx_focused := (idx : Int), use_major := false,
              nb_before := idx, nb_after := parent.children.length - idx - 1 }
      | none =>
        ∃ st, resolve_loop fuel use_width root rp st0 = .ok st ∧
          st.parent = (if rp = [] then st0.parent else some []) := by
  intro rp
  induction rp with
  | nil =>
    intro st0 _ _
    exact ⟨st0, rfl, by simp⟩
  | cons idx up ih =>
    intro st0 hvalid hplain
    -- the parent on the path and the position of the child in it
    rw [List.reverse_cons, subtree_snoc] at hvalid
    cases hsub : subtree root up.reverse with
    | none => rw [hsub] at hvalid; cases hvalid
    | some parent =>
      rw [hsub] at hvalid
      simp only [] at hvalid
      have hidx : idx < parent.children.length := by
        obtain ⟨c, hc⟩ := Option.isSome_iff_exists.mp hvalid
        exact (List.getElem?_eq_some_iff.mp hc).1
      unfold plain_ancestors at hplain
      rw [hsub] at hplain
      simp only [Bool.and_eq_true, Bool.not_eq_true', decide_eq_true_eq] at hplain
      obtain ⟨⟨hauto, hlen⟩, hup⟩ := hplain
      have hupvalid : (subtree root up.reverse).isSome = true := by rw [hsub]; rfl
      have hnb := neighbours_split fuel parent idx hauto hidx hlen
      have hmaj := major_axis_plain use_width parent hauto
      have hcand := candidate_plain use_width parent hauto
      -- the loop body at this parent
      by_cases hc : candidate use_width parent = true
      · have hbreak : resolve_loop fuel use_width root (idx :: up) st0 = .ok
            { parent := some up, idx_focused := (idx : Int), use_major := false,
              nb_before := idx, nb_after := parent.children.length - idx - 1 } := by
          unfold resolve_loop
          rw [hsub]
          simp only []
          rw [if_pos hc, hmaj, hnb]
          simp only []
          have hgt := (hcand.mp hc).1
          have hne : idx ≠ 0 ∨ parent.children.length - idx - 1 ≠ 0 := by omega
          rw [if_pos hne]
        cases up with
        | nil =>
          simp only [nearest_split]
          exact ⟨_, hbreak, by simp⟩
        | cons p up' =>
          simp only [nearest_split]
          rw [hsub]
          simp only []
          rw [if_pos (hcand.mp hc)]
          exact ⟨parent, hsub, hidx, hbreak⟩
      · have hskip : resolve_loop fuel use_width root (idx :: up) st0 =
            resolve_loop fuel use_width root up { st0 with parent := some up } := by
          conv_lhs => unfold resolve_loop
          rw [hsub]
          simp only []
          rw [if_neg hc]
        have hrec := ih { st0 with parent := some up } hupvalid hup
        cases up with
        | nil =>
          simp only [nearest_split]
          rw [hskip]
          exact ⟨_, rfl, by simp⟩
        | cons p up' =>
          have hns : nearest_split use_width root (idx :: p :: up') =
              nearest_split use_width root (p :: up') := by
            conv_lhs => unfold nearest_split
            rw [hsub]
            simp only []
            rw [if_neg (fun h => hc (hcand.mpr h))]
          rw [hns, hskip]
          cases hn : nearest_split use_width root (p :: up') with
          | none =>
            rw [hn] at hrec
            obtain ⟨st, h1, h2⟩ := hrec
            exact ⟨st, h1, by simpa using h2⟩
          | some r =>
            rw [hn] at hrec
            exact hrec

/-- C17: when no ancestor of the focused leaf has an auto layout, the ancestor
search of `resize_tiled` stops at the nearest ancestor below the root that has
more than one child and the split layout of the axis (horizontal for width,
vertical for height), with `use_major` false, `nb_before = idx` and
`nb_after = children.length - idx - 1`, `idx` being the position in that
ancestor of the child on the path to the focused leaf; other ancestors are
skipped, and when there is no such ancestor the search ends at the root. -/
theorem resolve_plain_split (fuel : Nat) (use_width : Bool) (root : swayc_t) (focus : List Nat)
    (hne : focus ≠ [])
    (hfocus : (subtree root focus).isSome = true)
    (hplain : plain_ancestors root focus.reverse = true) :
    match nearest_split use_width root focus.reverse with
    | some (idx, up) =>
      ∃ parent, subtree root up.reverse = some parent ∧ idx < parent.children.length ∧
        resolve fuel use_width root focus = .ok
          { parent := some up, idx_focused := (idx : Int), use_major := false,
            nb_before := idx, nb_after := parent.children.length - idx - 1 }
    | none =>
      ∃ st, resolve fuel use_width root focus = .ok st ∧ st.parent = some [] := by
  obtain ⟨c, hc⟩ := Option.isSome_iff_exists.mp hfocus
  have hres : resolve fuel use_width root focus =
      resolve_loop fuel use_width root focus.reverse
        { parent := focus.reverse.tail?, idx_focused := 0, use_major := false,
          nb_before := 0, nb_after := 0 } := by
    unfold resolve
    rw [hc]
  have hvalid : (subtree root focus.reverse.reverse).isSome = true := by
    rw [List.reverse_reverse]; exact hfocus
  have h := resolve_loop_plain fuel use_width root focus.reverse
    { parent := focus.reverse.tail?, idx_focused := 0, use_major := false,
      nb_before := 0, nb_after := 0 } hvalid hplain
  have hr : focus.reverse ≠ [] := by simpa using hne
  rw [hres]
  cases hn : nearest_split use_width root focus.reverse with
  | none =>
    rw [hn] at h
    obtain ⟨st, h1, h2⟩ := h
    rw [if_neg hr] at h2
    exact ⟨st, h1, h2⟩
  | some r =>
    rw [hn] at h
    exact h

theorem resolve_plain_split_witness :
    ∃ parent, subtree nested_splits [0].reverse = some parent ∧ 1 < parent.children.length ∧
      resolve 0 true nested_splits [0, 1, 0, 1] = .ok
        { parent := some [0], idx_focused := ((1 : Nat) : Int), use_major := false,
          nb_before := 1, nb_after := parent.children.length - 1 - 1 } :=
  resolve_plain_split 0 true nested_splits [0, 1, 0, 1] (by decide) (by decide) (by decide)

theorem group_end_index_outside_auto (container : swayc_t) (index : Int)
    (h : index < 0 ∨ is_auto_layout container.layout = false) :
    group_end_index container index = .ok container.length := by
  unfold group_end_index
  rw [if_pos]
  rcases h with h | h
  · exact Or.inl h
  · right; simp [h]

theorem next_group_index_negative (fuel : Nat) (container : swayc_t) (after : Int)
    (h : after < 0) : next_group_index fuel container after = .ok 0 := by
  unfold next_group_index
  rw [if_pos h]

theorem next_group_index_not_auto (fuel : Nat) (container : swayc_t) (after : Int)
    (h0 : 0 ≤ after) (h : is_auto_layout container.layout = false) :
    next_group_index fuel container after = .ok container.length := by
  unfold next_group_index
  rw [if_neg (by omega)]
  simp [h]

theorem next_group_index_master (fuel : Nat) (container : swayc_t) (after : Int)
    (h0 : 0 ≤ after) (h : is_auto_layout container.layout = true)
    (hm : after < (container.nb_master : Int)) (hlen : container.nb_master < 2 ^ 31) :
    next_group_index fuel container after = .ok (container.nb_master : Int) := by
  unfold next_group_index
  rw [if_neg (by omega)]
  have h1 : to_uint after < container.nb_master := by unfold to_uint; omega
  have h2 : to_int container.nb_master = (container.nb_master : Int) := by
    unfold to_int; split <;> omega
  simp [h, h1, h2]

theorem ilog2_fuel_spec : ∀ (fuel n : Nat), 0 < n → n ≤ fuel →
    2 ^ ilog2_fuel fuel n ≤ n ∧ n < 2 ^ (ilog2_fuel fuel n + 1) := by
  intro fuel
  induction fuel with
  | zero => intro n h0 h; omega
  | succ f ih =>
    intro n h0 h
    unfold ilog2_fuel
    by_cases h2 : n < 2
    · rw [if_pos h2]
      have : n = 1 := by omega
      subst this
      simp
    · rw [if_neg h2]
      have hpos : 0 < n / 2 := by omega
      have hle : n / 2 ≤ f := by omega
      obtain ⟨h3, h4⟩ := ih (n / 2) hpos hle
      constructor
      · rw [pow_succ]; omega
      · rw [pow_succ]; omega

theorem ilog2_spec (n : Nat) (h : 0 < n) : 2 ^ ilog2 n ≤ n ∧ n < 2 ^ (ilog2 n + 1) :=
  ilog2_fuel_spec n n h (Nat.le_refl n)

theorem ge_pow2_iff (n d : Nat) (hd : 0 < d) (k : Int) :
    ge_pow2 n d k = true ↔ (2 : ℚ) ^ k ≤ (n : ℚ) / (d : ℚ) := by
  have hdq : (0 : ℚ) < d := by exact_mod_cast hd
  unfold ge_pow2
  by_cases hk : 0 ≤ k
  · rw [if_pos hk, decide_eq_true_eq, le_div_iff₀ hdq]
    obtain ⟨j, rfl⟩ := Int.eq_ofNat_of_zero_le hk
    simp only [Int.toNat_ofNat, zpow_natCast]
    constructor
    · intro h
      have : ((d * 2 ^ j : Nat) : ℚ) ≤ (n : ℚ) := by exact_mod_cast h
      push_cast at this
      linarith
    · intro h
      have : ((d * 2 ^ j : Nat) : ℚ) ≤ (n : ℚ) := by push_cast; linarith
      exact_mod_cast this
  · rw [if_neg hk, decide_eq_true_eq, le_div_iff₀ hdq]
    have hk' : 0 ≤ -k := by omega
    obtain ⟨j, hj⟩ := Int.eq_ofNat_of_zero_le hk'
    have hkj : k = -(j : Int) := by omega
    rw [hj, hkj]
    simp only [Int.toNat_ofNat, zpow_neg, zpow_natCast]
    have hp : (0 : ℚ) < 2 ^ j := by positivity
    constructor
    · intro h
      have h1 : ((d : Nat) : ℚ) ≤ ((n * 2 ^ j : Nat) : ℚ) := by exact_mod_cast h
      push_cast at h1
      rw [inv_mul_le_iff₀ hp]
      linarith
    · intro h
      rw [inv_mul_le_iff₀ hp] at h
      have h1 : ((d : Nat) : ℚ) ≤ ((n * 2 ^ j : Nat) : ℚ) := by push_cast; linarith
      exact_mod_cast h1

theorem binary_exponent_spec (n d : Nat) (hn : 0 < n) (hd : 0 < d) :
    (2 : ℚ) ^ binary_exponent n d ≤ (n : ℚ) / (d : ℚ) ∧
      (n : ℚ) / (d : ℚ) < (2 : ℚ) ^ (binary_exponent n d + 1) := by
  have hdq : (0 : ℚ) < d := by exact_mod_cast hd
  obtain ⟨ha1, ha2⟩ := ilog2_spec n hn
  obtain ⟨hb1, hb2⟩ := ilog2_spec d hd
  have ha1q : (2 : ℚ) ^ (ilog2 n) ≤ (n : ℚ) := by exact_mod_cast ha1
  have ha2q : (n : ℚ) < (2 : ℚ) ^ (ilog2 n + 1) := by exact_mod_cast ha2
  have hb1q : (2 : ℚ) ^ (ilog2 d) ≤ (d : ℚ) := by exact_mod_cast hb1
  have hb2q : (d : ℚ) < (2 : ℚ) ^ (ilog2 d + 1) := by exact_mod_cast hb2
  have h2 : (2 : ℚ) ≠ 0 := by norm_num
  have hpa : (0 : ℚ) < 2 ^ (ilog2 n) := by positivity
  have hpb : (0 : ℚ) < 2 ^ (ilog2 d) := by positivity
  -- the quotient lies strictly between `2 ^ (k - 1)` and `2 ^ (k + 1)`
  have hup : (n : ℚ) / (d : ℚ) < (2 : ℚ) ^ ((ilog2 n : Int) - (ilog2 d : Int) + 1) := by
    have e : (2 : ℚ) ^ ((ilog2 n : Int) - (ilog2 d : Int) + 1)
        = (2 : ℚ) ^ (ilog2 n + 1) / (2 : ℚ) ^ (ilog2 d) := by
      rw [show (ilog2 n : Int) - (ilog2 d : Int) + 1 = ((ilog2 n + 1 : Nat) : Int) - (ilog2 d : Int)
        by push_cast; ring, zpow_sub₀ h2, zpow_natCast, zpow_natCast]
    rw [e, div_lt_div_iff₀ hdq hpb]
    calc (n : ℚ) * 2 ^ ilog2 d < 2 ^ (ilog2 n + 1) * 2 ^ ilog2 d := by
          exact mul_lt_mul_of_pos_right ha2q hpb
      _ ≤ 2 ^ (ilog2 n + 1) * (d : ℚ) := by
          exact mul_le_mul_of_nonneg_left hb1q (by positivity)
  have hlo : (2 : ℚ) ^ ((ilog2 n : Int) - (ilog2 d : Int) - 1) ≤ (n : ℚ) / (d : ℚ) := by
    have e : (2 : ℚ) ^ ((ilog2 n : Int) - (ilog2 d : Int) - 1)
        = (2 : ℚ) ^ (ilog2 n) / (2 : ℚ) ^ (ilog2 d + 1) := by
      rw [show (ilog2 n : Int) - (ilog2 d : Int) - 1 = (ilog2 n : Int) - ((ilog2 d + 1 : Nat) : Int)
        by push_cast; ring, zpow_sub₀ h2, zpow_natCast, zpow_natCast]
    rw [e, div_le_div_iff₀ (by positivity) hdq]
    calc (2 : ℚ) ^ ilog2 n * (d : ℚ) ≤ (n : ℚ) * (d : ℚ) := by
          exact mul_le_mul_of_nonneg_right ha1q (le_of_lt hdq)
      _ ≤ (n : ℚ) * 2 ^ (ilog2 d + 1) := by
          exact mul_le_mul_of_nonneg_left (le_of_lt hb2q) (by positivity)
  unfold binary_exponent
  by_cases hg : ge_pow2 n d ((ilog2 n : Int) - (ilog2 d : Int)) = true
  · rw [if_pos hg]
    exact ⟨(ge_pow2_iff n d hd _).mp hg, hup⟩
  · rw [if_neg hg]
    refine ⟨hlo, ?_⟩
    have hlt : ¬ (2 : ℚ) ^ ((ilog2 n : Int) - (ilog2 d : Int)) ≤ (n : ℚ) / (d : ℚ) :=
      fun h => hg ((ge_pow2_iff n d hd _).mpr h)
    rw [show (ilog2 n : Int) - (ilog2 d : Int) - 1 + 1 = (ilog2 n : Int) - (ilog2 d : Int) by ring]
    exact lt_of_not_le hlt

theorem round_half_even_spec (n d : Nat) (hd : 0 < d) :
    |((round_half_even n d : Nat) : ℚ) - (n : ℚ) / (d : ℚ)| ≤ 1 / 2 := by
  have hdq : (0 : ℚ) < d := by exact_mod_cast hd
  have hdiv : (n : ℚ) / (d : ℚ) = ((n / d : Nat) : ℚ) + ((n % d : Nat) : ℚ) / (d : ℚ) := by
    have h := Nat.div_add_mod n d
    have hq : ((d * (n / d) + n % d : Nat) : ℚ) = (n : ℚ) := by exact_mod_cast h
    push_cast at hq
    field_simp
    linarith
  have hr : n % d < d := Nat.mod_lt n hd
  have hrq : ((n % d : Nat) : ℚ) < (d : ℚ) := by exact_mod_cast hr
  have hr0 : (0 : ℚ) ≤ ((n % d : Nat) : ℚ) := by positivity
  have hfrac0 : (0 : ℚ) ≤ ((n % d : Nat) : ℚ) / (d : ℚ) := by positivity
  rw [abs_le, hdiv]
  unfold round_half_even
  by_cases h1 : 2 * (n % d) < d
  · rw [if_pos h1]
    have h1q : 2 * ((n % d : Nat) : ℚ) < (d : ℚ) := by exact_mod_cast h1
    have : ((n % d : Nat) : ℚ) / (d : ℚ) < 1 / 2 := by
      rw [div_lt_iff₀ hdq]; linarith
    constructor <;> linarith
  · rw [if_neg h1]
    have hge : (d : ℚ) ≤ 2 * ((n % d : Nat) : ℚ) := by
      have : d ≤ 2 * (n % d) := by omega
      exact_mod_cast this
    have hlow : 1 / 2 ≤ ((n % d : Nat) : ℚ) / (d : ℚ) := by
      rw [le_div_iff₀ hdq]; linarith
    have hhigh : ((n % d : Nat) : ℚ) / (d : ℚ) < 1 := by
      rw [div_lt_iff₀ hdq]; linarith
    by_cases h2 : d < 2 * (n % d)
    · rw [if_pos h2]
      push_cast
      constructor <;> linarith
    · rw [if_neg h2]
      have heq : 2 * (n % d) = d := by omega
      have heqq : 2 * ((n % d : Nat) : ℚ) = (d : ℚ) := by exact_mod_cast heq
      have hhalf : ((n % d : Nat) : ℚ) / (d : ℚ) = 1 / 2 := by
        rw [div_eq_iff (ne_of_gt hdq)]; linarith
      by_cases h3 : (n / d) % 2 = 0
      · rw [if_pos h3]
        constructor <;> linarith
      · rw [if_neg h3]
        push_cast
        constructor <;> linarith

theorem f32_round_pos_rel (n d : Nat) (hn : 0 < n) (hd : 0 < d)
    (hlo : (2 : ℚ) ^ (-100 : Int) ≤ (n : ℚ) / (d : ℚ))
    (hhi : (n : ℚ) / (d : ℚ) ≤ (2 : ℚ) ^ (100 : Int)) :
    ∃ (m : Int) (k : Nat), f32_round_pos n d = pixels_t.fin m k ∧ 0 < k ∧
      |(m : ℚ) / (k : ℚ) - (n : ℚ) / (d : ℚ)| ≤ (n : ℚ) / (d : ℚ) * f32_unit := by
  have hdq : (0 : ℚ) < d := by exact_mod_cast hd
  obtain ⟨hE1, hE2⟩ := binary_exponent_spec n d hn hd
  have h1 : (1 : ℚ) ≤ 2 := by norm_num
  -- bounds of the exponent
  have hEhi : binary_exponent n d ≤ 100 := by
    by_contra hc
    have hc' : (101 : Int) ≤ binary_exponent n d := by omega
    have := zpow_le_zpow_right₀ h1 hc'
    have h3 : (2 : ℚ) ^ (100 : Int) < (2 : ℚ) ^ (101 : Int) := by norm_num
    linarith
  have hElo : -101 ≤ binary_exponent n d := by
    by_contra hc
    have hc' : binary_exponent n d + 1 ≤ (-101 : Int) := by omega
    have h4 := zpow_le_zpow_right₀ h1 hc'
    have h3 : (2 : ℚ) ^ (-101 : Int) < (2 : ℚ) ^ (-100 : Int) := by norm_num
    exact absurd (lt_of_lt_of_le (lt_of_le_of_lt hlo hE2) h4) (not_lt.mpr (le_of_lt h3))
  have he : max (binary_exponent n d - 23) (-149) = binary_exponent n d - 23 := by
    apply max_eq_left; omega
  have hov : ∀ m : Nat, ¬ (104 < binary_exponent n d - 23 ∨
      (binary_exponent n d - 23 = 104 ∧ 2 ^ 24 ≤ m)) := by
    intro m; omega
  unfold f32_round_pos
  simp only [he]
  rw [if_neg (hov _)]
  unfold f32_unit
  by_cases hpos : 0 ≤ binary_exponent n d - 23
  · rw [if_pos hpos]
    obtain ⟨j, hj⟩ := Int.eq_ofNat_of_zero_le hpos
    have hEj : binary_exponent n d = ((j + 23 : Nat) : Int) := by push_cast; omega
    rw [hEj, zpow_natCast] at hE1
    simp only [if_pos hpos]
    simp only [hj, Int.toNat_ofNat]
    refine ⟨_, 1, rfl, Nat.one_pos, ?_⟩
    have hpj : (0 : ℚ) < (2 : ℚ) ^ j := by positivity
    have hs := round_half_even_spec n (d * 2 ^ j) (Nat.mul_pos hd (by positivity))
    push_cast at hs ⊢
    rw [abs_le] at hs ⊢
    have hdiv : (n : ℚ) / ((d : ℚ) * 2 ^ j) = (n : ℚ) / (d : ℚ) / 2 ^ j := by
      rw [div_div]
    rw [hdiv] at hs
    obtain ⟨hs1, hs2⟩ := hs
    have hs1' : (n : ℚ) / (d : ℚ) / 2 ^ j - 1 / 2 ≤ (round_half_even n (d * 2 ^ j) : ℚ) := by
      linarith
    have hs2' : (round_half_even n (d * 2 ^ j) : ℚ) ≤ (n : ℚ) / (d : ℚ) / 2 ^ j + 1 / 2 := by
      linarith
    have e1 : ((n : ℚ) / (d : ℚ) / 2 ^ j - 1 / 2) * 2 ^ j = (n : ℚ) / (d : ℚ) - 2 ^ j / 2 := by
      field_simp
      ring
    have e2 : ((n : ℚ) / (d : ℚ) / 2 ^ j + 1 / 2) * 2 ^ j = (n : ℚ) / (d : ℚ) + 2 ^ j / 2 := by
      field_simp
      ring
    have m1 := mul_le_mul_of_nonneg_right hs1' (le_of_lt hpj)
    have m2 := mul_le_mul_of_nonneg_right hs2' (le_of_lt hpj)
    rw [e1] at m1
    rw [e2] at m2
    have hpow : (2 : ℚ) ^ (j + 23) = 2 ^ j * 8388608 := by rw [pow_add]; norm_num
    rw [hpow] at hE1
    simp only [div_one]
    constructor <;> linarith
  · rw [if_neg hpos]
    have hneg : 0 ≤ -(binary_exponent n d - 23) := by omega
    obtain ⟨j, hj⟩ := Int.eq_ofNat_of_zero_le hneg
    have hEj : binary_exponent n d = (23 : Int) - (j : Int) := by omega
    have h2 : (2 : ℚ) ≠ 0 := by norm_num
    rw [hEj, zpow_sub₀ h2, zpow_natCast] at hE1
    simp only [if_neg hpos]
    simp only [hj, Int.toNat_ofNat]
    have hpj : (0 : ℚ) < (2 : ℚ) ^ j := by positivity
    refine ⟨_, 2 ^ j, rfl, by positivity, ?_⟩
    have hs := round_half_even_spec (n * 2 ^ j) d hd
    push_cast at hs ⊢
    rw [abs_le] at hs ⊢
    obtain ⟨hs1, hs2⟩ := hs
    have hs1' : (n : ℚ) * 2 ^ j / (d : ℚ) - 1 / 2 ≤ (round_half_even (n * 2 ^ j) d : ℚ) := by
      linarith
    have hs2' : (round_half_even (n * 2 ^ j) d : ℚ) ≤ (n : ℚ) * 2 ^ j / (d : ℚ) + 1 / 2 := by
      linarith
    have e1 : ((n : ℚ) * 2 ^ j / (d : ℚ) - 1 / 2) / 2 ^ j
        = (n : ℚ) / (d : ℚ) - 1 / (2 * 2 ^ j) := by
      field_simp
      ring
    have e2 : ((n : ℚ) * 2 ^ j / (d : ℚ) + 1 / 2) / 2 ^ j
        = (n : ℚ) / (d : ℚ) + 1 / (2 * 2 ^ j) := by
      field_simp
      ring
    have m1 := div_le_div_of_nonneg_right hs1' (le_of_lt hpj)
    have m2 := div_le_div_of_nonneg_right hs2' (le_of_lt hpj)
    rw [e1] at m1
    rw [e2] at m2
    have e3 : (1 : ℚ) / (2 * 2 ^ j) = (2 : ℚ) ^ (23 : Int) / 2 ^ j * (1 / 16777216) := by
      field_simp
      norm_num
      ring
    rw [e3] at m1 m2
    have hmul := mul_le_mul_of_nonneg_right hE1 (show (0 : ℚ) ≤ 1 / 16777216 by norm_num)
    constructor <;> linarith

theorem f32_round_rel (n : Int) (d : Nat) (hn : n ≠ 0) (hd : 0 < d)
    (hlo : (2 : ℚ) ^ (-100 : Int) ≤ |(n : ℚ) / (d : ℚ)|)
    (hhi : |(n : ℚ) / (d : ℚ)| ≤ (2 : ℚ) ^ (100 : Int)) :
    approx (f32_round (pixels_t.fin n d)) ((n : ℚ) / (d : ℚ)) f32_unit := by
  have hdq : (0 : ℚ) < d := by exact_mod_cast hd
  simp only [f32_round, if_neg hn]
  by_cases hpos : 0 < n
  · simp only [if_pos hpos]
    have hcast : ((n.toNat : Nat) : ℚ) = (n : ℚ) := by
      have : ((n.toNat : Nat) : Int) = n := Int.toNat_of_nonneg (le_of_lt hpos)
      exact_mod_cast this
    have hq : (0 : ℚ) < (n : ℚ) / (d : ℚ) := by
      apply div_pos _ hdq
      exact_mod_cast hpos
    rw [abs_of_pos hq] at hlo hhi
    have hnat : 0 < n.toNat := by omega
    obtain ⟨m, k, h1, h2, h3⟩ := f32_round_pos_rel n.toNat d hnat hd
      (by rw [hcast]; exact hlo) (by rw [hcast]; exact hhi)
    rw [hcast] at h3
    refine ⟨m, k, h1, h2, ?_⟩
    rw [abs_of_pos hq]
    exact h3
  · simp only [if_neg hpos]
    have hneg : n < 0 := by omega
    have hcast : (((-n).toNat : Nat) : ℚ) = -(n : ℚ) := by
      have : (((-n).toNat : Nat) : Int) = -n := Int.toNat_of_nonneg (by omega)
      exact_mod_cast this
    have hq : (n : ℚ) / (d : ℚ) < 0 := by
      apply div_neg_of_neg_of_pos _ hdq
      exact_mod_cast hneg
    rw [abs_of_neg hq] at hlo hhi
    have hnat : 0 < (-n).toNat := by omega
    have e : -(n : ℚ) / (d : ℚ) = -((n : ℚ) / (d : ℚ)) := by ring
    obtain ⟨m, k, h1, h2, h3⟩ := f32_round_pos_rel (-n).toNat d hnat hd
      (by rw [hcast, e]; exact hlo) (by rw [hcast, e]; exact hhi)
    rw [hcast, e] at h3
    refine ⟨-m, k, by rw [h1]; rfl, h2, ?_⟩
    have e2 : ((-m : Int) : ℚ) / (k : ℚ) - (n : ℚ) / (d : ℚ)
        = -((m : ℚ) / (k : ℚ) - -((n : ℚ) / (d : ℚ))) := by push_cast; ring
    rw [e2, abs_neg, abs_of_neg hq]
    exact h3

theorem approx_of_int (a : Int) : approx (pixels_t.of_int a) (a : ℚ) 0 := by
  refine ⟨a, 1, rfl, Nat.one_pos, ?_⟩
  simp

theorem approx_bounds (p : pixels_t) (z err : ℚ) (h : approx p z err) (herr : err ≤ 1 / 2) :
    ∃ (m : Int) (k : Nat), p = pixels_t.fin m k ∧ 0 < k ∧
      |(m : ℚ) / (k : ℚ) - z| ≤ |z| * err ∧
      |z| / 2 ≤ |(m : ℚ) / (k : ℚ)| ∧ |(m : ℚ) / (k : ℚ)| ≤ 2 * |z| := by
  obtain ⟨m, k, h1, h2, h3⟩ := h
  refine ⟨m, k, h1, h2, h3, ?_, ?_⟩
  · have hz : 0 ≤ |z| := abs_nonneg z
    have h4 : |z| - |(m : ℚ) / (k : ℚ)| ≤ |z - (m : ℚ) / (k : ℚ)| := abs_sub_abs_le_abs_sub _ _
    rw [abs_sub_comm] at h4
    have h5 : |z| * err ≤ |z| * (1 / 2) := mul_le_mul_of_nonneg_left herr hz
    linarith
  · have hz : 0 ≤ |z| := abs_nonneg z
    have h4 : |(m : ℚ) / (k : ℚ)| - |z| ≤ |(m : ℚ) / (k : ℚ) - z| := abs_sub_abs_le_abs_sub _ _
    have h5 : |z| * err ≤ |z| * (1 / 2) := mul_le_mul_of_nonneg_left herr hz
    linarith

theorem approx_round (p : pixels_t) (z err : ℚ) (h : approx p z err)
    (herr : err ≤ 1 / 2) (hz : z ≠ 0)
    (hlo : 1 / 1000 ≤ |z|) (hhi : |z| ≤ 1099511627776) :
    approx (f32_round p) z (f32_unit + err + f32_unit * err) := by
  obtain ⟨m, k, h1, h2, h3, h4, h5⟩ := approx_bounds p z err h herr
  have hzpos : 0 < |z| := abs_pos.mpr hz
  have hm : m ≠ 0 := by
    intro h0
    rw [h0] at h4
    simp at h4
    linarith
  have e1 : (2 : ℚ) ^ (-100 : Int) ≤ 1 / 2000 := by norm_num
  have e2 : (2199023255552 : ℚ) ≤ (2 : ℚ) ^ (100 : Int) := by norm_num
  obtain ⟨m', k', g1, g2, g3⟩ := f32_round_rel m k hm h2
    (le_trans e1 (by linarith)) (le_trans (by linarith) e2)
  rw [h1]
  refine ⟨m', k', g1, g2, ?_⟩
  have hu : (0 : ℚ) ≤ f32_unit := by unfold f32_unit; norm_num
  have t1 : |(m' : ℚ) / (k' : ℚ) - z|
      ≤ |(m' : ℚ) / (k' : ℚ) - (m : ℚ) / (k : ℚ)| + |(m : ℚ) / (k : ℚ) - z| := abs_sub_le _ _ _
  have t2 : |(m : ℚ) / (k : ℚ)| ≤ |z| + |z| * err := by
    have := abs_sub_abs_le_abs_sub ((m : ℚ) / (k : ℚ)) z
    linarith
  have t3 : |(m : ℚ) / (k : ℚ)| * f32_unit ≤ (|z| + |z| * err) * f32_unit :=
    mul_le_mul_of_nonneg_right t2 hu
  have e3 : |z| * (f32_unit + err + f32_unit * err)
      = (|z| + |z| * err) * f32_unit + |z| * err := by ring
  rw [e3]
  linarith

theorem approx_div (p : pixels_t) (z err : ℚ) (h : approx p z err) :
    approx (p.div_uint 100) (z / 100) err := by
  obtain ⟨m, k, h1, h2, h3⟩ := h
  rw [h1]
  refine ⟨m, k * 100, by simp [pixels_t.div_uint], by omega, ?_⟩
  have e : (m : ℚ) / ((k * 100 : Nat) : ℚ) - z / 100 = ((m : ℚ) / (k : ℚ) - z) / 100 := by
    push_cast
    field_simp
    ring
  rw [e, abs_div, abs_div]
  have : |(100 : ℚ)| = 100 := by norm_num
  rw [this]
  have e2 : |z| / 100 * err = |z| * err / 100 := by ring
  rw [e2]
  exact div_le_div_of_nonneg_right h3 (by norm_num)

theorem approx_mul (p p' : pixels_t) (z z' a b : ℚ) (h : approx p z a) (h' : approx p' z' b)
    (ha : 0 ≤ a) :
    approx (p.mul p') (z * z') (a + b + a * b) := by
  obtain ⟨m, k, h1, h2, h3⟩ := h
  obtain ⟨m', k', g1, g2, g3⟩ := h'
  rw [h1, g1]
  refine ⟨m * m', k * k', rfl, Nat.mul_pos h2 g2, ?_⟩
  have hk : (k : ℚ) ≠ 0 := by exact_mod_cast (Nat.pos_iff_ne_zero.mp h2)
  have hk' : (k' : ℚ) ≠ 0 := by exact_mod_cast (Nat.pos_iff_ne_zero.mp g2)
  have e : ((m * m' : Int) : ℚ) / ((k * k' : Nat) : ℚ) - z * z'
      = ((m : ℚ) / (k : ℚ) - z) * ((m' : ℚ) / (k' : ℚ)) + z * ((m' : ℚ) / (k' : ℚ) - z') := by
    push_cast
    field_simp
    ring
  have t2 : |(m' : ℚ) / (k' : ℚ)| ≤ |z'| + |z'| * b := by
    have := abs_sub_abs_le_abs_sub ((m' : ℚ) / (k' : ℚ)) z'
    linarith
  rw [e]
  calc |((m : ℚ) / (k : ℚ) - z) * ((m' : ℚ) / (k' : ℚ)) + z * ((m' : ℚ) / (k' : ℚ) - z')|
      ≤ |((m : ℚ) / (k : ℚ) - z) * ((m' : ℚ) / (k' : ℚ))| + |z * ((m' : ℚ) / (k' : ℚ) - z')| :=
        abs_add _ _
    _ = |(m : ℚ) / (k : ℚ) - z| * |(m' : ℚ) / (k' : ℚ)| + |z| * |(m' : ℚ) / (k' : ℚ) - z'| := by
        rw [abs_mul, abs_mul]
    _ ≤ (|z| * a) * (|z'| + |z'| * b) + |z| * (|z'| * b) := by
        apply add_le_add
        · exact mul_le_mul h3 t2 (abs_nonneg _) (mul_nonneg (abs_nonneg _) ha)
        · exact mul_le_mul_of_nonneg_left g3 (abs_nonneg _)
    _ = |z * z'| * (a + b + a * b) := by rw [abs_mul]; ring

theorem tdiv_near_pos (m : Int) (k : Nat) (N : Int) (hk : 0 < k) (hN : 0 < N)
    (h : |(m : ℚ) / (k : ℚ) - (N : ℚ) / 100| < 1 / 100) :
    Int.tdiv m k = Int.tdiv N 100 ∨
      ((100 : Int) ∣ N ∧ Int.tdiv m k = Int.tdiv N 100 - Int.sign N) := by
  have hkq : (0 : ℚ) < k := by exact_mod_cast hk
  rw [abs_lt] at h
  obtain ⟨hl, hu⟩ := h
  have hNq : (1 : ℚ) ≤ (N : ℚ) := by exact_mod_cast hN
  have hmk : 0 < (m : ℚ) / (k : ℚ) := by linarith
  have hm : 0 < m := by
    by_contra hc
    have hm0 : (m : ℚ) ≤ 0 := by exact_mod_cast (not_lt.mp hc)
    have : (m : ℚ) / (k : ℚ) ≤ 0 := div_nonpos_of_nonpos_of_nonneg hm0 (le_of_lt hkq)
    linarith
  have hfl : Int.tdiv m k = ⌊(m : ℚ) / (k : ℚ)⌋ := by
    rw [Int.tdiv_eq_ediv (le_of_lt hm) (Int.ofNat_nonneg k), Rat.floor_intCast_div_natCast]
  have hN100 : Int.tdiv N 100 = N / 100 := Int.tdiv_eq_ediv (le_of_lt hN) (by decide)
  have hdm := Int.ediv_add_emod N 100
  have hr0 : 0 ≤ N % 100 := Int.emod_nonneg N (by decide)
  have hr1 : N % 100 < 100 := Int.emod_lt_of_pos N (by decide)
  have hdmq : (N : ℚ) = 100 * ((N / 100 : Int) : ℚ) + ((N % 100 : Int) : ℚ) := by
    exact_mod_cast hdm.symm
  have hr0q : (0 : ℚ) ≤ ((N % 100 : Int) : ℚ) := by exact_mod_cast hr0
  rw [hfl, hN100]
  by_cases hr : N % 100 = 0
  · have hdvd : (100 : Int) ∣ N := Int.dvd_of_emod_eq_zero hr
    rw [hr] at hdmq
    simp only [Int.cast_zero, add_zero] at hdmq
    by_cases hge : ((N / 100 : Int) : ℚ) ≤ (m : ℚ) / (k : ℚ)
    · left
      rw [Int.floor_eq_iff]
      constructor
      · exact hge
      · linarith
    · right
      refine ⟨hdvd, ?_⟩
      rw [Int.sign_eq_one_of_pos hN, Int.floor_eq_iff]
      push_cast
      constructor <;> linarith
  · left
    have hr1' : 1 ≤ N % 100 := by omega
    have hr99 : N % 100 ≤ 99 := by omega
    have hr1q : (1 : ℚ) ≤ ((N % 100 : Int) : ℚ) := by exact_mod_cast hr1'
    have hr99q : ((N % 100 : Int) : ℚ) ≤ 99 := by exact_mod_cast hr99
    rw [Int.floor_eq_iff]
    constructor <;> linarith

theorem tdiv_near (m : Int) (k : Nat) (N : Int) (hk : 0 < k) (hN : N ≠ 0)
    (h : |(m : ℚ) / (k : ℚ) - (N : ℚ) / 100| < 1 / 100) :
    Int.tdiv m k = Int.tdiv N 100 ∨
      ((100 : Int) ∣ N ∧ Int.tdiv m k = Int.tdiv N 100 - Int.sign N) := by
  rcases lt_or_gt_of_ne hN with hneg | hpos
  · have h' : |((-m : Int) : ℚ) / (k : ℚ) - ((-N : Int) : ℚ) / 100| < 1 / 100 := by
      have e : ((-m : Int) : ℚ) / (k : ℚ) - ((-N : Int) : ℚ) / 100
          = -((m : ℚ) / (k : ℚ) - (N : ℚ) / 100) := by push_cast; ring
      rw [e, abs_neg]
      exact h
    have hp := tdiv_near_pos (-m) k (-N) hk (by omega) h'
    rw [Int.neg_tdiv, Int.neg_tdiv, Int.sign_neg] at hp
    rcases hp with hp | ⟨hd, hp⟩
    · left; omega
    · right
      have hd' : (100 : Int) ∣ N := by
        obtain ⟨c, hc⟩ := hd
        exact ⟨-c, by omega⟩
      exact ⟨hd', by omega⟩
  · exact tdiv_near_pos m k N hk hpos h

theorem tdiv_100_bounds (N B : Int) (h : |N| ≤ B) :
    -B ≤ Int.tdiv N 100 ∧ Int.tdiv N 100 ≤ B := by
  rw [abs_le] at h
  rcases Int.le_total 0 N with h0 | h0
  · rw [Int.tdiv_eq_ediv h0 (by decide)]
    omega
  · have e : N = -(-N) := by omega
    have h2 : Int.tdiv N 100 = -((-N) / 100) := by
      conv_lhs => rw [e, Int.neg_tdiv, Int.tdiv_eq_ediv (by omega) (by decide)]
    rw [h2]
    omega

theorem f32_round_zero (d : Nat) : f32_round (pixels_t.fin 0 d) = pixels_t.fin 0 1 := by
  simp [f32_round]

theorem int_abs_bounds (x : Int) (hx : x ≠ 0) (B : Int) (hB : |x| ≤ B) :
    (1 : ℚ) ≤ |(x : ℚ)| ∧ |(x : ℚ)| ≤ (B : ℚ) := by
  have h1 : (1 : Int) ≤ |x| := Int.one_le_abs hx
  constructor
  · have : ((1 : Int) : ℚ) ≤ ((|x| : Int) : ℚ) := by exact_mod_cast h1
    simpa [Int.cast_abs] using this
  · have : ((|x| : Int) : ℚ) ≤ (B : ℚ) := by exact_mod_cast hB
    simpa [Int.cast_abs] using this

theorem f32_round_of_int (x : Int) (hx : x ≠ 0) (hB : |x| ≤ 2 ^ 31) :
    approx (f32_round (pixels_t.of_int x)) (x : ℚ) (f32_unit + 0 + f32_unit * 0) := by
  obtain ⟨h1, h2⟩ := int_abs_bounds x hx _ hB
  have hx0 : (x : ℚ) ≠ 0 := by exact_mod_cast hx
  push_cast at h2
  exact approx_round _ _ _ (approx_of_int x) (by norm_num) hx0 (by linarith) (by linarith)

theorem ppt_dim_near (percent c : Int) (hp0 : percent ≠ 0) (hc : c ≠ 0)
    (hp : |percent| ≤ 2 ^ 31) (hcb : |c| ≤ 2 ^ 31) (hb : |percent * c| ≤ 3276800) :
    ∃ (m : Int) (k : Nat), ppt_dim percent c = pixels_t.fin m k ∧ 0 < k ∧
      |(m : ℚ) / (k : ℚ) - ((percent * c : Int) : ℚ) / 100| < 1 / 100 := by
  obtain ⟨hp1, hp2⟩ := int_abs_bounds percent hp0 _ hp
  obtain ⟨hc1, hc2⟩ := int_abs_bounds c hc _ hcb
  have hN0 : percent * c ≠ 0 := mul_ne_zero hp0 hc
  obtain ⟨hN1, hN2⟩ := int_abs_bounds (percent * c) hN0 _ hb
  push_cast at hp2 hc2 hN1 hN2
  have hpq : (percent : ℚ) ≠ 0 := by exact_mod_cast hp0
  have hcq : (c : ℚ) ≠ 0 := by exact_mod_cast hc
  have hA := f32_round_of_int percent hp0 hp
  have hY0 := approx_div _ _ _ hA
  have habs100 : |(percent : ℚ) / 100| = |(percent : ℚ)| / 100 := by
    rw [abs_div]; norm_num
  have hY := approx_round _ _ _ hY0 (by unfold f32_unit; norm_num)
    (div_ne_zero hpq (by norm_num)) (by rw [habs100]; linarith) (by rw [habs100]; linarith)
  have hC := f32_round_of_int c hc hcb
  have hP := approx_mul _ _ _ _ _ _ hC hY (by unfold f32_unit; norm_num)
  have hprod : (c : ℚ) * ((percent : ℚ) / 100) = (percent : ℚ) * (c : ℚ) / 100 := by ring
  have habsN : |(percent : ℚ) * (c : ℚ) / 100| = |(percent : ℚ) * (c : ℚ)| / 100 := by
    rw [abs_div]; norm_num
  have hX := approx_round _ _ _ hP (by unfold f32_unit; norm_num)
    (mul_ne_zero hcq (div_ne_zero hpq (by norm_num)))
    (by rw [hprod, habsN]; linarith) (by rw [hprod, habsN]; linarith)
  obtain ⟨m, k, hx, hk, hbound⟩ := hX
  refine ⟨m, k, hx, hk, ?_⟩
  rw [hprod] at hbound
  push_cast
  have hsmall : |(percent : ℚ) * (c : ℚ) / 100| *
      (f32_unit + (f32_unit + 0 + f32_unit * 0 +
        (f32_unit + (f32_unit + 0 + f32_unit * 0) + f32_unit * (f32_unit + 0 + f32_unit * 0)) +
        (f32_unit + 0 + f32_unit * 0) *
          (f32_unit + (f32_unit + 0 + f32_unit * 0) + f32_unit * (f32_unit + 0 + f32_unit * 0))) +
        f32_unit * (f32_unit + 0 + f32_unit * 0 +
        (f32_unit + (f32_unit + 0 + f32_unit * 0) + f32_unit * (f32_unit + 0 + f32_unit * 0)) +
        (f32_unit + 0 + f32_unit * 0) *
          (f32_unit + (f32_unit + 0 + f32_unit * 0) + f32_unit * (f32_unit + 0 + f32_unit * 0))))
      < 1 / 100 := by
    rw [habsN]
    unfold f32_unit
    have h0 : (0 : ℚ) ≤ |(percent : ℚ) * (c : ℚ)| := abs_nonneg _
    norm_num
    linarith
  exact lt_of_le_of_lt hbound hsmall

theorem ppt_dim_zero (percent c : Int) (h : percent = 0 ∨ c = 0)
    (hp : |percent| ≤ 2 ^ 31) (hcb : |c| ≤ 2 ^ 31) :
    ppt_dim percent c = pixels_t.fin 0 1 := by
  unfold ppt_dim
  by_cases hp0 : percent = 0
  · subst hp0
    have e1 : f32_round (pixels_t.of_int 0) = pixels_t.fin 0 1 := f32_round_zero 1
    have e2 : (pixels_t.fin 0 1).div_uint 100 = pixels_t.fin 0 (1 * 100) := by
      simp [pixels_t.div_uint]
    simp only [e1, e2, f32_round_zero]
    by_cases hc : c = 0
    · subst hc
      rw [e1]
      exact f32_round_zero _
    · obtain ⟨m, k, h1, _, _⟩ := f32_round_of_int c hc hcb
      rw [h1]
      simp only [pixels_t.mul, mul_zero]
      exact f32_round_zero _
  · have hc : c = 0 := by
      rcases h with h | h
      · exact absurd h hp0
      · exact h
    subst hc
    have e1 : f32_round (pixels_t.of_int 0) = pixels_t.fin 0 1 := f32_round_zero 1
    obtain ⟨hp1, hp2⟩ := int_abs_bounds percent hp0 _ hp
    push_cast at hp2
    have hpq : (percent : ℚ) ≠ 0 := by exact_mod_cast hp0
    have habs100 : |(percent : ℚ) / 100| = |(percent : ℚ)| / 100 := by
      rw [abs_div]; norm_num
    obtain ⟨m, k, h1, _, _⟩ := approx_round _ _ _
      (approx_div _ _ _ (f32_round_of_int percent hp0 hp)) (by unfold f32_unit; norm_num)
      (div_ne_zero hpq (by norm_num)) (by rw [habs100]; linarith) (by rw [habs100]; linarith)
    rw [e1, h1]
    simp only [pixels_t.mul, zero_mul]
    exact f32_round_zero _

/-- C14, counterexample: for 10 percent of a current dimension of 59 the exact
product is 5.9; `resize` substitutes 5, and 6 is nearer. -/
theorem ppt_not_nearest :
    resize (some (view 0 0 59 59)) 10 true RESIZE_DIM_PPT = .ok (resize_call.resize_tiled 5 true) ∧
    (ppt_dim 10 59).cast_int = .ok 5 ∧
    ¬ is_nearest 5 ((10 : ℚ) / 100 * 59) := by
  refine ⟨by decide, by decide, ?_⟩
  intro h
  have h6 := h 6
  norm_num [abs_le, abs_of_pos, abs_of_neg] at h6

/-- C14, amended: for integer percent values and current dimensions `c ≥ 0` in
the range of `int` whose exact product `percent / 100 * c` is at most 32768 in
absolute value, the pixel value that `resize` substitutes for a percentage
amount is the single-precision product cast to `int`: it equals the exact
product truncated toward zero, except that when the exact product is an integer
it may also be the next integer toward zero. -/
theorem ppt_truncates (percent c : Int) (hp : |percent| ≤ 2 ^ 31) (hc0 : 0 ≤ c)
    (hc1 : c ≤ 2 ^ 31) (hb : |percent * c| ≤ 3276800) :
    ∃ v : Int, (ppt_dim percent c).cast_int = .ok v ∧
      (v = Int.tdiv (percent * c) 100 ∨
        ((100 : Int) ∣ percent * c ∧
          v = Int.tdiv (percent * c) 100 - Int.sign (percent * c))) := by
  have hcb : |c| ≤ 2 ^ 31 := by rw [abs_of_nonneg hc0]; exact hc1
  by_cases hz : percent = 0 ∨ c = 0
  · rw [ppt_dim_zero percent c hz hp hcb]
    refine ⟨0, by decide, Or.inl ?_⟩
    rcases hz with h | h <;> subst h <;> simp
  · have hp0 : percent ≠ 0 := fun h => hz (Or.inl h)
    have hc : c ≠ 0 := fun h => hz (Or.inr h)
    obtain ⟨m, k, hx, hk, hnear⟩ := ppt_dim_near percent c hp0 hc hp hcb hb
    have hN0 : percent * c ≠ 0 := mul_ne_zero hp0 hc
    have hdis := tdiv_near m k (percent * c) hk hN0 hnear
    obtain ⟨hlo, hhi⟩ := tdiv_100_bounds (percent * c) 3276800 hb
    have hsign : -1 ≤ Int.sign (percent * c) ∧ Int.sign (percent * c) ≤ 1 := by
      rcases lt_trichotomy (percent * c) 0 with h | h | h
      · rw [Int.sign_eq_neg_one_of_neg h]; omega
      · rw [h]; simp
      · rw [Int.sign_eq_one_of_pos h]; omega
    have hrange : -2 ^ 31 ≤ Int.tdiv m k ∧ Int.tdiv m k < 2 ^ 31 := by
      rcases hdis with h | ⟨_, h⟩ <;> rw [h] <;> omega
    refine ⟨Int.tdiv m k, ?_, hdis⟩
    rw [hx]
    simp only [pixels_t.cast_int]
    rw [if_pos hrange]

theorem ppt_truncates_witness :
    ∃ v : Int, (ppt_dim 21 300).cast_int = .ok v ∧
      (v = Int.tdiv (21 * 300) 100 ∨
        ((100 : Int) ∣ 21 * 300 ∧ v = Int.tdiv (21 * 300) 100 - Int.sign (21 * 300))) :=
  ppt_truncates 21 300 (by decide) (by decide) (by decide) (by decide)

/-- C13: `resize` on a focused window passes to `resize_floating` the
percentage-resolved value for the unit `ppt` and the amount itself for `px`
and for the default unit when the window is floating, and passes to
`resize_tiled` the amount itself for `px` and the percentage-resolved value
for `ppt` and for the default unit when the window is tiled. The
percentage-resolved value is the single-precision product cast to `int`, as
long as `int` holds it: 116 for 13 percent of 900, 62 for 21 percent of 300,
100 for 10 percent of 1000, -5 for -10 percent of 59; for 2000000000 percent
of 1000 the cast is undefined. -/
theorem resize_unit_defaulting (focused : swayc_t) (a : Int) (use_width : Bool)
    (u : resize_dim_types) :
    (resize (some focused) a use_width u =
      if focused.is_floating then
        (if u = RESIZE_DIM_PPT then
          match (ppt_dim a (dimension use_width focused)).cast_int with
          | .error e => .error e
          | .ok p => .ok (resize_call.resize_floating p use_width)
        else .ok (resize_call.resize_floating a use_width))
      else
        (if u = RESIZE_DIM_PX then .ok (resize_call.resize_tiled a use_width)
        else
          match (ppt_dim a (dimension use_width focused)).cast_int with
          | .error e => .error e
          | .ok p => .ok (resize_call.resize_tiled p use_width))) ∧
    (ppt_dim 13 900).cast_int = .ok 116 ∧
    (ppt_dim 21 300).cast_int = .ok 62 ∧
    (ppt_dim 10 1000).cast_int = .ok 100 ∧
    (ppt_dim (-10) 59).cast_int = .ok (-5) ∧
    (ppt_dim 2000000000 1000).cast_int = .error .castUndefined ∧
    resize (some (view 0 0 1000 600)) 2000000000 true RESIZE_DIM_PPT
      = .error .castUndefined ∧
    resize (some (view 0 0 900 600)) 13 true RESIZE_DIM_DEFAULT
      = .ok (resize_call.resize_tiled 116 true) ∧
    resize (some (view 0 0 900 600)) 13 true RESIZE_DIM_PX
      = .ok (resize_call.resize_tiled 13 true) ∧
    resize (some (view 0 0 900 300)) 21 false RESIZE_DIM_PPT
      = .ok (resize_call.resize_tiled 62 false) ∧
    resize (some { view 0 0 900 300 with is_floating := true }) 21 false RESIZE_DIM_PPT
      = .ok (resize_call.resize_floating 62 false) ∧
    resize (some { view 0 0 900 300 with is_floating := true }) 21 false RESIZE_DIM_DEFAULT
      = .ok (resize_call.resize_floating 21 false) ∧
    resize (some { view 0 0 900 300 with is_floating := true }) 21 false RESIZE_DIM_PX
      = .ok (resize_call.resize_floating 21 false) := by
  refine ⟨?_, by decide, by decide, by decide, by decide, by decide, by decide, by decide,
    by decide, by decide, by decide, by decide, by decide⟩
  cases use_width <;> cases u <;> cases h : focused.is_floating <;> simp [resize, h, dimension]

theorem group_index_loop_stuck_part6 (n : Nat) :
    group_index_loop part6 4 n 1 0 = .error .outOfFuel := by
  induction n with
  | zero => rfl
  | succ k ih =>
    rw [group_index_loop]
    simpa using ih

/-- C16 (concrete partition scenario), evaluated on the code: in the auto-left
container with one master, two slave groups and five slave children, for the
child at slave index 3 (child 4) `group_start_index` returns `2`, not `3`,
`group_end_index` returns `5`, and `group_index` returns for no amount of
fuel, so the group of the child is never computed. -/
theorem partition_scenario_on_code :
    group_start_index part6 4 = .ok 2 ∧ group_end_index part6 4 = .ok 5 ∧
      ∀ fuel, group_index fuel part6 4 = .error .outOfFuel := by
  refine ⟨by decide, by decide, ?_⟩
  intro fuel
  have h1 : to_int part6.nb_master = 1 := by decide
  unfold group_index
  rw [h1, group_index_loop_stuck_part6]
  rfl

end Sway
